import Mathlib

/-!
# Competitive Sudoku engine — verification of spec claims

A shallow embedding of the game-tree search core of the Competitive-Sudoku
agent repository (state model, legal-move generation, move application,
minimax/alpha-beta, heuristic pruning, MCTS statistics and rollout), with
theorems settling the frozen claims about the natural-language specification.

The Python sources embedded here are the files under the repository's
`team42_*` packages.  The surrounding `competitive_sudoku` framework
(`SudokuBoard`, `GameState`, `player_squares`) is not part of the sources;
those pieces are modelled from the specification's data-model section and
are marked `Modelled from the spec` in their doc comments.
-/

set_option autoImplicit false

namespace CompetitiveSudoku

/-- A board coordinate (row, column), 0-indexed, row-major. -/
abbrev Square : Type := ℕ × ℕ

/-- A candidate placement (`Move` in the Python framework): a square plus a value. -/
structure Move where
  square : Square
  value : ℕ
  deriving DecidableEq, Repr

/-- Modelled from the spec: the `SudokuBoard` class of the excluded
`competitive_sudoku` framework.  An N×N grid with block dimensions m×n
(N = m*n), stored row-major in the flat list `squares`, with `0` as the
empty-cell marker (the sources compare cells against the literal `0`). -/
structure SudokuBoard where
  m : ℕ
  n : ℕ
  squares : List ℕ
  deriving DecidableEq, Repr

namespace SudokuBoard

/-- Modelled from the spec: board side length, `N = m * n`. -/
def N (b : SudokuBoard) : ℕ := b.m * b.n

/-- Modelled from the spec: `SudokuBoard.get`, reading the cell at a
(row, col) square of the row-major flat list. -/
def get (b : SudokuBoard) (sq : Square) : ℕ :=
  b.squares.getD (sq.1 * b.N + sq.2) 0

/-- Modelled from the spec: `SudokuBoard.put`, writing a value at a
(row, col) square. -/
def put (b : SudokuBoard) (sq : Square) (v : ℕ) : SudokuBoard :=
  { b with squares := b.squares.set (sq.1 * b.N + sq.2) v }

/-- Modelled from the spec: the board's empty-cell marker. -/
def empty (_ : SudokuBoard) : ℕ := 0

end SudokuBoard

/-- Modelled from the spec: the framework's `GameState` record — board,
taboo moves, move history, the two players' scores (`scores[0]`,
`scores[1]`), the two occupied-squares lists and the current player id. -/
structure GameState where
  board : SudokuBoard
  taboo_moves : List (Square × ℕ)
  moves : List Move
  scores : List ℤ
  occupied_squares1 : List Square
  occupied_squares2 : List Square
  current_player : ℕ
  deriving DecidableEq, Repr

/-- Modelled from the spec: the externally supplied `player_squares` method
of the framework's `GameState` — the "allowed squares" oracle.  `none`
means no allowed-squares restriction applies; `some l` restricts the
current player (read from the state's `current_player` field) to the
squares in `l`.  The search-layer functions receive it as a parameter. -/
abbrev PlayerSquares : Type := GameState → Option (List Square)

/-! ## `team42_A1/check_legal_moves.py` -/

namespace A1

/-- `get_row`: all cell values in the row of `square` (empties included). -/
def get_row (board : SudokuBoard) (square : Square) : List ℕ :=
  (List.range board.N).map (fun j => board.get (square.1, j))

/-- `get_column`: all cell values in the column of `square` (empties included). -/
def get_column (board : SudokuBoard) (square : Square) : List ℕ :=
  (List.range board.N).map (fun i => board.get (i, square.2))

/-- `get_block`: all cell values in the m×n block of `square`
(outer loop over the block's columns, inner over its rows, as in the source). -/
def get_block (board : SudokuBoard) (square : Square) : List ℕ :=
  let region_row := square.1 / board.m * board.m
  let region_col := square.2 / board.n * board.n
  (List.range board.n).flatMap (fun j =>
    (List.range board.m).map (fun i => board.get (region_row + i, region_col + j)))

/-- `full_board`: all squares of the board not in either occupied list. -/
def full_board (game_state : GameState) : List Square :=
  let empty_board := (List.range game_state.board.N).flatMap (fun i =>
    (List.range game_state.board.N).map (fun j => (i, j)))
  let occupied := game_state.occupied_squares1 ++ game_state.occupied_squares2
  empty_board.filter (fun square => decide (square ∉ occupied))

/-- `get_legal_moves`: for each allowed square (every unoccupied square when
the oracle returns `None`) and each value `1..N`, keep the pair unless it is
taboo or the value already occurs in the square's row, column or block. -/
def get_legal_moves (ps : PlayerSquares) (game_state : GameState) : List Move :=
  let N := game_state.board.N
  let allowed_squares := (ps game_state).getD (full_board game_state)
  allowed_squares.flatMap (fun square =>
    ((List.range N).map (· + 1)).filterMap (fun value =>
      if (square, value) ∈ game_state.taboo_moves then none
      else if value ∈ get_row game_state.board square then none
      else if value ∈ get_column game_state.board square then none
      else if value ∈ get_block game_state.board square then none
      else some ⟨square, value⟩))

end A1

/-! ## `team42_A1/sudokuai.py` -/

namespace A1

/-- `_move_score`: the `[0, 1, 3, 7]` bonus indexed by how many of the
square's row, column and block contain no empty cell. -/
def move_score (board : SudokuBoard) (square : Square) : ℤ :=
  let score : List ℤ := [0, 1, 3, 7]
  let n_filled :=
    (if 0 ∈ get_row board square then 0 else 1)
    + (if 0 ∈ get_column board square then 0 else 1)
    + (if 0 ∈ get_block board square then 0 else 1)
  score.getD n_filled 0

/-- `_make_move`: place the value, append the move to the history, add the
region-completion bonus to the mover's score, extend the mover's
occupied-squares list and flip the current player.  The source's
`copy.deepcopy` is the identity in this pure embedding (its freedom from
mutation is settled separately on a heap model). -/
def make_move (game_state : GameState) (move : Move) : GameState :=
  let s1 : GameState := { game_state with
    board := game_state.board.put move.square move.value
    moves := game_state.moves ++ [move] }
  let ms := move_score s1.board move.square
  let idx := s1.current_player - 1
  let s2 : GameState := { s1 with scores := s1.scores.set idx (s1.scores.getD idx 0 + ms) }
  let s3 : GameState :=
    if s2.current_player = 1 then
      { s2 with occupied_squares1 := s2.occupied_squares1 ++ [move.square] }
    else
      { s2 with occupied_squares2 := s2.occupied_squares2 ++ [move.square] }
  { s3 with current_player := 3 - s3.current_player }

end A1

/-! ## Claim-side vocabulary

Predicates written from the specification's words, used to state the claims
independently of the list-based code above. -/

namespace Spec

/-- The row of `sq` is complete: it contains no empty cells. -/
def RowComplete (b : SudokuBoard) (sq : Square) : Prop :=
  ∀ j < b.N, b.get (sq.1, j) ≠ 0

/-- The column of `sq` is complete: it contains no empty cells. -/
def ColComplete (b : SudokuBoard) (sq : Square) : Prop :=
  ∀ i < b.N, b.get (i, sq.2) ≠ 0

/-- The m×n block of `sq` is complete: it contains no empty cells. -/
def BlockComplete (b : SudokuBoard) (sq : Square) : Prop :=
  ∀ i < b.m, ∀ j < b.n,
    b.get (sq.1 / b.m * b.m + i, sq.2 / b.n * b.n + j) ≠ 0

instance (b : SudokuBoard) (sq : Square) : Decidable (RowComplete b sq) := by
  unfold RowComplete
  infer_instance

instance (b : SudokuBoard) (sq : Square) : Decidable (ColComplete b sq) := by
  unfold ColComplete
  infer_instance

instance (b : SudokuBoard) (sq : Square) : Decidable (BlockComplete b sq) := by
  unfold BlockComplete
  infer_instance

/-- How many of the square's row, column and block are complete. -/
def completedRegions (b : SudokuBoard) (sq : Square) : ℕ :=
  (if RowComplete b sq then 1 else 0)
    + (if ColComplete b sq then 1 else 0)
    + (if BlockComplete b sq then 1 else 0)

/-- The 0/1/3/7 region-completion bonus of the spec. -/
def bonus : ℕ → ℤ
  | 0 => 0
  | 1 => 1
  | 2 => 3
  | _ => 7

/-- `v` already occurs somewhere in the row of `sq`. -/
def ValueInRow (b : SudokuBoard) (sq : Square) (v : ℕ) : Prop :=
  ∃ j < b.N, b.get (sq.1, j) = v

/-- `v` already occurs somewhere in the column of `sq`. -/
def ValueInCol (b : SudokuBoard) (sq : Square) (v : ℕ) : Prop :=
  ∃ i < b.N, b.get (i, sq.2) = v

/-- `v` already occurs somewhere in the block of `sq`. -/
def ValueInBlock (b : SudokuBoard) (sq : Square) (v : ℕ) : Prop :=
  ∃ i < b.m, ∃ j < b.n,
    b.get (sq.1 / b.m * b.m + i, sq.2 / b.n * b.n + j) = v

/-- `sq` is allowed for the current player: unrestricted when the oracle
returns `none`, otherwise a member of the oracle's list. -/
def AllowedFor (ps : PlayerSquares) (s : GameState) (sq : Square) : Prop :=
  match ps s with
  | none => True
  | some l => sq ∈ l

/-- The claim's description of a legal move: an in-range (square, value)
pair whose square is empty and allowed for the current player, whose value
does not already occur in the square's row, column or block, and which is
not taboo. -/
def LegalMove (ps : PlayerSquares) (s : GameState) (mv : Move) : Prop :=
  1 ≤ mv.value ∧ mv.value ≤ s.board.N
    ∧ mv.square.1 < s.board.N ∧ mv.square.2 < s.board.N
    ∧ s.board.get mv.square = 0
    ∧ AllowedFor ps s mv.square
    ∧ ¬ ValueInRow s.board mv.square mv.value
    ∧ ¬ ValueInCol s.board mv.square mv.value
    ∧ ¬ ValueInBlock s.board mv.square mv.value
    ∧ (mv.square, mv.value) ∉ s.taboo_moves

end Spec

/-! ## Bridging lemmas between the list-based code and the spec predicates -/

theorem mem_get_row_iff (b : SudokuBoard) (sq : Square) (v : ℕ) :
    v ∈ A1.get_row b sq ↔ Spec.ValueInRow b sq v := by
  simp [A1.get_row, Spec.ValueInRow, eq_comm]

theorem mem_get_column_iff (b : SudokuBoard) (sq : Square) (v : ℕ) :
    v ∈ A1.get_column b sq ↔ Spec.ValueInCol b sq v := by
  simp [A1.get_column, Spec.ValueInCol, eq_comm]

theorem mem_get_block_iff (b : SudokuBoard) (sq : Square) (v : ℕ) :
    v ∈ A1.get_block b sq ↔ Spec.ValueInBlock b sq v := by
  simp only [A1.get_block, Spec.ValueInBlock, List.mem_flatMap, List.mem_map,
    List.mem_range]
  constructor
  · rintro ⟨j, hj, i, hi, h⟩
    exact ⟨i, hi, j, hj, h⟩
  · rintro ⟨i, hi, j, hj, h⟩
    exact ⟨j, hj, i, hi, h⟩

theorem zero_mem_get_row_iff (b : SudokuBoard) (sq : Square) :
    0 ∈ A1.get_row b sq ↔ ¬ Spec.RowComplete b sq := by
  rw [mem_get_row_iff]
  unfold Spec.ValueInRow Spec.RowComplete
  push_neg
  rfl

theorem zero_mem_get_column_iff (b : SudokuBoard) (sq : Square) :
    0 ∈ A1.get_column b sq ↔ ¬ Spec.ColComplete b sq := by
  rw [mem_get_column_iff]
  unfold Spec.ValueInCol Spec.ColComplete
  push_neg
  rfl

theorem zero_mem_get_block_iff (b : SudokuBoard) (sq : Square) :
    0 ∈ A1.get_block b sq ↔ ¬ Spec.BlockComplete b sq := by
  rw [mem_get_block_iff]
  unfold Spec.ValueInBlock Spec.BlockComplete
  push_neg
  rfl

/-- The source's `[0, 1, 3, 7]` lookup agrees with the spec's bonus applied
to the number of complete regions. -/
theorem move_score_eq_bonus (b : SudokuBoard) (sq : Square) :
    A1.move_score b sq = Spec.bonus (Spec.completedRegions b sq) := by
  by_cases h1 : Spec.RowComplete b sq <;>
    by_cases h2 : Spec.ColComplete b sq <;>
      by_cases h3 : Spec.BlockComplete b sq <;>
        simp [A1.move_score, Spec.completedRegions, zero_mem_get_row_iff,
          zero_mem_get_column_iff, zero_mem_get_block_iff, h1, h2, h3,
          Spec.bonus, List.getD]

theorem SudokuBoard.N_put (b : SudokuBoard) (sq : Square) (v : ℕ) :
    (b.put sq v).N = b.N := rfl

/-- Writing then reading the same in-range square returns the written value. -/
theorem SudokuBoard.get_put_self (b : SudokuBoard) (sq : Square) (v : ℕ)
    (hlen : b.squares.length = b.N * b.N) (h1 : sq.1 < b.N) (h2 : sq.2 < b.N) :
    (b.put sq v).get sq = v := by
  have hidx : sq.1 * b.N + sq.2 < b.squares.length := by
    rw [hlen]
    calc sq.1 * b.N + sq.2 < sq.1 * b.N + b.N := by omega
    _ = (sq.1 + 1) * b.N := by ring
    _ ≤ b.N * b.N := Nat.mul_le_mul_right _ h1
  dsimp only [SudokuBoard.get, SudokuBoard.put, SudokuBoard.N] at *
  rw [List.getD_eq_getElem?_getD, List.getElem?_set_self',
    List.getElem?_eq_getElem hidx]
  simp

/-! ## Claim C1: the move-application transform -/

/-- **C1.** For every well-formed `GameState` and every move legal in it,
`_make_move` returns a state in which the move's square holds the move's
value, the move is appended to the history, the mover's occupied-squares
list is extended with the square, the current player is flipped to the
other of {1, 2}, and the mover's score grows by exactly 0/1/3/7 according
to how many of the square's row, column and block are complete (contain no
empty cell) after the placement; the opponent's score is unchanged. -/
theorem C1_make_move_correct (ps : PlayerSquares) (s : GameState) (mv : Move)
    (hboard : s.board.squares.length = s.board.N * s.board.N)
    (hscores : s.scores.length = 2)
    (hplayer : s.current_player = 1 ∨ s.current_player = 2)
    (hmem : mv ∈ A1.get_legal_moves ps s)
    (hr : mv.square.1 < s.board.N) (hc : mv.square.2 < s.board.N) :
    (A1.make_move s mv).board.get mv.square = mv.value
      ∧ (A1.make_move s mv).moves = s.moves ++ [mv]
      ∧ (s.current_player = 1 →
          (A1.make_move s mv).occupied_squares1 = s.occupied_squares1 ++ [mv.square]
            ∧ (A1.make_move s mv).occupied_squares2 = s.occupied_squares2)
      ∧ (s.current_player = 2 →
          (A1.make_move s mv).occupied_squares2 = s.occupied_squares2 ++ [mv.square]
            ∧ (A1.make_move s mv).occupied_squares1 = s.occupied_squares1)
      ∧ (s.current_player = 1 → (A1.make_move s mv).current_player = 2)
      ∧ (s.current_player = 2 → (A1.make_move s mv).current_player = 1)
      ∧ (A1.make_move s mv).scores.getD (s.current_player - 1) 0
          = s.scores.getD (s.current_player - 1) 0
            + Spec.bonus (Spec.completedRegions
                (s.board.put mv.square mv.value) mv.square)
      ∧ (A1.make_move s mv).scores.getD (2 - s.current_player) 0
          = s.scores.getD (2 - s.current_player) 0 := by
  obtain ⟨p1s, p2s, hsc⟩ := List.length_eq_two.mp hscores
  have hput := SudokuBoard.get_put_self s.board mv.square mv.value hboard hr hc
  rcases hplayer with hp | hp <;>
    simp [A1.make_move, hp, hsc, move_score_eq_bonus, hput, List.getD]

/-! ## Claim C2: the legal-move generator -/

theorem mem_full_board_iff (s : GameState) (sq : Square) :
    sq ∈ A1.full_board s ↔
      sq.1 < s.board.N ∧ sq.2 < s.board.N
        ∧ sq ∉ s.occupied_squares1 ∧ sq ∉ s.occupied_squares2 := by
  obtain ⟨i, j⟩ := sq
  simp only [A1.full_board, List.mem_filter, List.mem_flatMap, List.mem_map,
    List.mem_range, List.mem_append, decide_eq_true_eq, not_or]
  constructor
  · rintro ⟨⟨a, ha, b, hb, heq⟩, hno1, hno2⟩
    obtain ⟨rfl, rfl⟩ := Prod.mk.injEq .. ▸ And.intro (congrArg Prod.fst heq)
      (congrArg Prod.snd heq)
    exact ⟨ha, hb, hno1, hno2⟩
  · rintro ⟨hi, hj, hno1, hno2⟩
    exact ⟨⟨i, hi, j, hj, rfl⟩, hno1, hno2⟩

theorem mem_get_legal_moves_iff (ps : PlayerSquares) (s : GameState) (mv : Move) :
    mv ∈ A1.get_legal_moves ps s ↔
      mv.square ∈ (ps s).getD (A1.full_board s)
        ∧ 1 ≤ mv.value ∧ mv.value ≤ s.board.N
        ∧ (mv.square, mv.value) ∉ s.taboo_moves
        ∧ mv.value ∉ A1.get_row s.board mv.square
        ∧ mv.value ∉ A1.get_column s.board mv.square
        ∧ mv.value ∉ A1.get_block s.board mv.square := by
  obtain ⟨sq, v⟩ := mv
  simp only [A1.get_legal_moves, List.mem_flatMap, List.mem_filterMap,
    List.mem_map, List.mem_range]
  constructor
  · rintro ⟨sq', hsq', v', ⟨a, ha, rfl⟩, hif⟩
    by_cases h1 : (sq', a + 1) ∈ s.taboo_moves
    · rw [if_pos h1] at hif
      exact Option.noConfusion hif
    rw [if_neg h1] at hif
    by_cases h2 : a + 1 ∈ A1.get_row s.board sq'
    · rw [if_pos h2] at hif
      exact Option.noConfusion hif
    rw [if_neg h2] at hif
    by_cases h3 : a + 1 ∈ A1.get_column s.board sq'
    · rw [if_pos h3] at hif
      exact Option.noConfusion hif
    rw [if_neg h3] at hif
    by_cases h4 : a + 1 ∈ A1.get_block s.board sq'
    · rw [if_pos h4] at hif
      exact Option.noConfusion hif
    rw [if_neg h4] at hif
    rw [Option.some.injEq, Move.mk.injEq] at hif
    obtain ⟨rfl, rfl⟩ := hif
    exact ⟨hsq', by omega, by omega, h1, h2, h3, h4⟩
  · rintro ⟨hsq, hv1, hvN, ht, hrow, hcol, hblk⟩
    refine ⟨sq, hsq, v, ⟨v - 1, by omega, by omega⟩, ?_⟩
    rw [if_neg ht, if_neg hrow, if_neg hcol, if_neg hblk]

/-- **C2.** `get_legal_moves` returns exactly the moves whose square is
empty and allowed for the current player (every empty square when no
allowed-squares restriction applies), whose value occurs nowhere in the
square's row, column or block, and which are not taboo; in particular it
returns the empty list, without failing, exactly when no such move exists.
Hypotheses: the state's occupancy lists match the board (the spec's
`GameState` invariant), and when a restriction applies the external oracle
yields only in-range empty squares (the spec's allowed-squares contract). -/
theorem C2_get_legal_moves_exact (ps : PlayerSquares) (s : GameState)
    (hocc : ∀ i < s.board.N, ∀ j < s.board.N,
      ((((i, j) : Square) ∈ s.occupied_squares1 ∨ ((i, j) : Square) ∈ s.occupied_squares2)
        ↔ s.board.get (i, j) ≠ 0))
    (hallowed : ∀ l, ps s = some l →
      ∀ sq ∈ l, sq.1 < s.board.N ∧ sq.2 < s.board.N ∧ s.board.get sq = 0) :
    (∀ mv : Move, mv ∈ A1.get_legal_moves ps s ↔ Spec.LegalMove ps s mv)
      ∧ (A1.get_legal_moves ps s = [] ↔ ∀ mv : Move, ¬ Spec.LegalMove ps s mv) := by
  have hocc' : ∀ sq : Square, sq.1 < s.board.N → sq.2 < s.board.N →
      ((sq ∈ s.occupied_squares1 ∨ sq ∈ s.occupied_squares2) ↔ s.board.get sq ≠ 0) := by
    rintro ⟨i, j⟩ h1 h2
    exact hocc i h1 j h2
  have hmain : ∀ mv : Move, mv ∈ A1.get_legal_moves ps s ↔ Spec.LegalMove ps s mv := by
    intro mv
    rw [mem_get_legal_moves_iff]
    unfold Spec.LegalMove Spec.AllowedFor
    cases hps : ps s with
    | none =>
      simp only [Option.getD_none]
      rw [mem_full_board_iff]
      constructor
      · rintro ⟨⟨h1, h2, ho1, ho2⟩, hv1, hvN, ht, hrow, hcol, hblk⟩
        have hempty : s.board.get mv.square = 0 := by
          by_contra hne
          rcases (hocc' mv.square h1 h2).mpr hne with h | h
          · exact ho1 h
          · exact ho2 h
        refine ⟨hv1, hvN, h1, h2, hempty, trivial, ?_, ?_, ?_, ht⟩
        · rwa [← mem_get_row_iff]
        · rwa [← mem_get_column_iff]
        · rwa [← mem_get_block_iff]
      · rintro ⟨hv1, hvN, h1, h2, hempty, -, hrow, hcol, hblk, ht⟩
        have hnocc : ¬(mv.square ∈ s.occupied_squares1 ∨ mv.square ∈ s.occupied_squares2) :=
          fun hor => (hocc' mv.square h1 h2).mp hor hempty
        refine ⟨⟨h1, h2, fun h => hnocc (Or.inl h), fun h => hnocc (Or.inr h)⟩,
          hv1, hvN, ht, ?_, ?_, ?_⟩
        · rwa [mem_get_row_iff]
        · rwa [mem_get_column_iff]
        · rwa [mem_get_block_iff]
    | some l =>
      simp only [Option.getD_some]
      constructor
      · rintro ⟨hsql, hv1, hvN, ht, hrow, hcol, hblk⟩
        obtain ⟨h1, h2, hempty⟩ := hallowed l hps mv.square hsql
        refine ⟨hv1, hvN, h1, h2, hempty, hsql, ?_, ?_, ?_, ht⟩
        · rwa [← mem_get_row_iff]
        · rwa [← mem_get_column_iff]
        · rwa [← mem_get_block_iff]
      · rintro ⟨hv1, hvN, h1, h2, hempty, hsql, hrow, hcol, hblk, ht⟩
        refine ⟨hsql, hv1, hvN, ht, ?_, ?_, ?_⟩
        · rwa [mem_get_row_iff]
        · rwa [mem_get_column_iff]
        · rwa [mem_get_block_iff]
  refine ⟨hmain, ?_⟩
  rw [List.eq_nil_iff_forall_not_mem]
  exact ⟨fun h mv hm => h mv ((hmain mv).mpr hm),
    fun h mv hm => h mv ((hmain mv).mp hm)⟩

/-! ## Concrete sample data for witnesses -/

/-- The classic-mode oracle: no allowed-squares restriction. -/
def psNone : PlayerSquares := fun _ => none

/-- An empty 2×2 board with 1×2 blocks. -/
def sampleBoard1 : SudokuBoard := ⟨1, 2, [0, 0, 0, 0]⟩

/-- A fresh state on `sampleBoard1`, player 1 to move. -/
def sampleState1 : GameState := ⟨sampleBoard1, [], [], [0, 0], [], [], 1⟩

theorem C1_make_move_correct_witness :
    (⟨(0, 0), 1⟩ : Move) ∈ A1.get_legal_moves psNone sampleState1
      ∧ (A1.make_move sampleState1 ⟨(0, 0), 1⟩).board.get (0, 0) = 1 :=
  ⟨by decide,
    (C1_make_move_correct psNone sampleState1 ⟨(0, 0), 1⟩ (by decide) (by decide)
      (by decide) (by decide) (by decide) (by decide)).1⟩

theorem C2_get_legal_moves_exact_witness :
    (⟨(0, 1), 2⟩ : Move) ∈ A1.get_legal_moves psNone sampleState1
      ↔ Spec.LegalMove psNone sampleState1 ⟨(0, 1), 2⟩ :=
  (C2_get_legal_moves_exact psNone sampleState1 (by decide)
    (fun l h => Option.noConfusion h)).1 ⟨(0, 1), 2⟩

/-! ## `team42_A2/check_legal_moves.py` and `team42_A2/sudoku_heuristics.py`

The A2 helpers return Python sets; they are embedded as `Finset`s.  A
Python `dict` keyed by squares is embedded as an association list in
insertion order.  Where Python iterates over a set in unspecified order
(the `itertools.combinations` enumerations), the embedding fixes the
canonical `Finset` enumeration; every theorem proved below is independent
of that choice. -/

namespace A2

/-- Python's extended slice `l[start::step]` on a list of cell values. -/
def sliceStep (l : List ℕ) (start step : ℕ) : List ℕ :=
  if step = 0 then []
  else (List.range ((l.length - start + step - 1) / step)).filterMap
    (fun k => l[start + k * step]?)

/-- `get_row` (A2): the set of values in the row of `square`
(`board.squares[r*N : (r+1)*N]` as a set). -/
def get_row (board : SudokuBoard) (square : Square) : Finset ℕ :=
  ((board.squares.drop (square.1 * board.N)).take board.N).toFinset

/-- `get_column` (A2): the set of values in the column of `square`
(`board.squares[c::N]` as a set). -/
def get_column (board : SudokuBoard) (square : Square) : Finset ℕ :=
  (sliceStep board.squares square.2 board.N).toFinset

/-- `get_block` (A2): the set of values in the m×n block of `square`. -/
def get_block (board : SudokuBoard) (square : Square) : Finset ℕ :=
  let region_row := square.1 / board.m * board.m
  let region_col := square.2 / board.n * board.n
  ((List.range board.n).flatMap (fun j =>
    (List.range board.m).map (fun i =>
      board.get (region_row + i, region_col + j)))).toFinset

/-- `_square_valid_moves`: values `1..N` minus those present in the
square's row, column and block. -/
def square_valid_moves (square : Square) (board : SudokuBoard) : Finset ℕ :=
  ((Finset.Icc 1 board.N \ get_row board square) \ get_column board square)
    \ get_block board square

/-- `_get_row_squares`. -/
def get_row_squares (row_idx : ℕ) (board : SudokuBoard) : Finset Square :=
  (Finset.range board.N).image (fun i => (row_idx, i))

/-- `_get_col_squares`. -/
def get_col_squares (col_idx : ℕ) (board : SudokuBoard) : Finset Square :=
  (Finset.range board.N).image (fun i => (i, col_idx))

/-- `_get_region_squares` — note the source swaps `m` and `n` here
relative to `get_block`, exactly as embedded. -/
def get_region_squares (square : Square) (board : SudokuBoard) : Finset Square :=
  let x := square.1 / board.n * board.n
  let y := square.2 / board.m * board.m
  ((List.range board.n).flatMap (fun i =>
    (List.range board.m).map (fun j => ((x + i, y + j) : Square)))).toFinset

/-- The three peer groups of a square (row, column, region minus itself),
in the order the source iterates them. -/
def peer_groups (square : Square) (board : SudokuBoard) : List (Finset Square) :=
  [get_row_squares square.1 board \ {square},
   get_col_squares square.2 board \ {square},
   get_region_squares square board \ {square}]

/-- `apply_rule` inside `only_squares_rule`: the values collectively
realizable by the still-empty members of the group; return
`values - available` when that is nonempty, else `values`. -/
def only_squares_apply (squares : Finset Square) (values : Finset ℕ)
    (board : SudokuBoard) : Finset ℕ :=
  let available := squares.sup (fun sq =>
    if board.get sq = board.empty then square_valid_moves sq board else ∅)
  if (values \ available).Nonempty then values \ available else values

/-- `only_squares_rule` (subgroup exclusion): for each dict entry, if some
peer group's rule yields a single value, narrow the entry to its
intersection with that value (first group wins, as the source breaks). -/
def only_squares_rule (moves : List (Square × Finset ℕ)) (board : SudokuBoard) :
    List (Square × Finset ℕ) :=
  moves.map (fun p =>
    let values := square_valid_moves p.1 board
    if values.card ≤ 1 then p
    else
      match (peer_groups p.1 board).find?
          (fun g => (only_squares_apply g values board).card = 1) with
      | some g => (p.1, p.2 ∩ only_squares_apply g values board)
      | none => p)

/-- The elements of a finite set of naturals in ascending order (Python
iterates sets in unspecified order; the embedding fixes the ascending one). -/
def elems (s : Finset ℕ) : List ℕ :=
  (List.range (s.sup id + 1)).filter (fun v => decide (v ∈ s))

/-- The 2-element subsets of a finite set, enumerated from its sorted
elements (`itertools.combinations(values, 2)`). -/
def pairsOf (s : Finset ℕ) : List (Finset ℕ) :=
  let l := elems s
  (List.range l.length).flatMap (fun i =>
    (List.range l.length).filterMap (fun j =>
      if i < j then some ({l.getD i 0, l.getD j 0} : Finset ℕ) else none))

/-- `apply_rule` inside `hidden_twin_rule` (group_size = 2): the first
candidate pair confined to exactly one empty peer's candidate set.  The
source's `sum([... for val in group_moves])` counts are taken directly
over the group's squares. -/
def hidden_twin_apply (squares : Finset Square) (values : Finset ℕ)
    (board : SudokuBoard) : Finset ℕ :=
  match (pairsOf values).find? (fun subset =>
    (squares.sum (fun sq =>
        if subset ⊆ square_valid_moves sq board then 1 else (0 : ℕ))) = 1
      ∧ (squares.sum (fun sq =>
        if (subset ∩ square_valid_moves sq board).Nonempty then 1 else (0 : ℕ))) = 1) with
  | some subset => subset
  | none => values

/-- `hidden_twin_rule` with `group_size = 2`. -/
def hidden_twin_rule (moves : List (Square × Finset ℕ)) (board : SudokuBoard) :
    List (Square × Finset ℕ) :=
  moves.map (fun p =>
    let values := square_valid_moves p.1 board
    if values.card ≤ 2 then p
    else
      let groups := (peer_groups p.1 board).map
        (fun g => g.filter (fun sq => board.get sq = board.empty))
      match groups.find? (fun g => (hidden_twin_apply g values board).card = 2) with
      | some g => (p.1, p.2 ∩ hidden_twin_apply g values board)
      | none => p)

/-- `apply_rule` inside `naked_twin_rule` (group_size = 2): if two empty
peers share an identical 2-element candidate set meeting `values`, remove
that pair from `values`. -/
def naked_twin_apply (squares : Finset Square) (values : Finset ℕ)
    (board : SudokuBoard) : Finset ℕ :=
  let available := squares.sup (fun sq => square_valid_moves sq board)
  match (pairsOf available).find? (fun subset =>
    (values ∩ subset).Nonempty
      ∧ (squares.sum (fun sq =>
        if square_valid_moves sq board = subset then 1 else (0 : ℕ))) = 2) with
  | some subset => values \ subset
  | none => values

/-- `naked_twin_rule` with `group_size = 2`. -/
def naked_twin_rule (moves : List (Square × Finset ℕ)) (board : SudokuBoard) :
    List (Square × Finset ℕ) :=
  moves.map (fun p =>
    if p.2.card ≤ 2 then p
    else
      let groups := (peer_groups p.1 board).map
        (fun g => g.filter (fun sq => board.get sq = board.empty))
      match groups.find? (fun g => naked_twin_apply g p.2 board ≠ p.2) with
      | some g => (p.1, naked_twin_apply g p.2 board)
      | none => p)

/-- Insert one move into the square-keyed dict (insertion-ordered). -/
def dict_insert (d : List (Square × Finset ℕ)) (sq : Square) (v : ℕ) :
    List (Square × Finset ℕ) :=
  if d.any (fun p => p.1 = sq) then
    d.map (fun p => if p.1 = sq then (p.1, insert v p.2) else p)
  else d ++ [(sq, {v})]

/-- The `moves_dict` built at the top of `sudoku_heuristics`. -/
def moves_dict (moves : List Move) : List (Square × Finset ℕ) :=
  moves.foldl (fun d mv => dict_insert d mv.square mv.value) []

/-- `sudoku_heuristics`: subgroup exclusion always; hidden- and naked-twin
only when `N > 4`; then flatten the dict back to a move list. -/
def sudoku_heuristics (moves : List Move) (game_state : GameState) : List Move :=
  let md := moves_dict moves
  let new_moves := only_squares_rule md game_state.board
  let new_moves :=
    if 4 < game_state.board.N then
      naked_twin_rule (hidden_twin_rule new_moves game_state.board) game_state.board
    else new_moves
  new_moves.flatMap (fun p => (elems p.2).map (fun v => (⟨p.1, v⟩ : Move)))

end A2


/-! ## Claim C4: the constraint-pruning heuristics -/

theorem mem_elems_iff (s : Finset ℕ) (v : ℕ) : v ∈ A2.elems s ↔ v ∈ s := by
  unfold A2.elems
  simp only [List.mem_filter, List.mem_range, decide_eq_true_eq]
  refine ⟨fun h => h.2, fun h => ⟨?_, h⟩⟩
  exact Nat.lt_succ_of_le (Finset.le_sup (f := id) h)

theorem pairsOf_subset (s : Finset ℕ) (t : Finset ℕ) (h : t ∈ A2.pairsOf s) :
    t ⊆ s := by
  unfold A2.pairsOf at h
  simp only [List.mem_flatMap, List.mem_filterMap, List.mem_range] at h
  obtain ⟨i, hi, j, hj, hij⟩ := h
  by_cases hlt : i < j
  · rw [if_pos hlt, Option.some.injEq] at hij
    subst hij
    have hmem : ∀ k, k < (A2.elems s).length → (A2.elems s).getD k 0 ∈ s := by
      intro k hk
      rw [← mem_elems_iff]
      rw [List.getD_eq_getElem?_getD, List.getElem?_eq_getElem hk]
      exact List.getElem_mem hk
    rw [Finset.insert_subset_iff, Finset.singleton_subset_iff]
    exact ⟨hmem i hi, hmem j hj⟩
  · rw [if_neg hlt] at hij
    exact Option.noConfusion hij

theorem only_squares_apply_subset (g : Finset Square) (v : Finset ℕ)
    (b : SudokuBoard) : A2.only_squares_apply g v b ⊆ v := by
  simp only [A2.only_squares_apply]
  split_ifs
  · exact Finset.sdiff_subset
  · exact Finset.Subset.refl v

theorem hidden_twin_apply_subset (g : Finset Square) (v : Finset ℕ)
    (b : SudokuBoard) : A2.hidden_twin_apply g v b ⊆ v := by
  unfold A2.hidden_twin_apply
  cases hfind : (A2.pairsOf v).find? _ with
  | none => exact Finset.Subset.refl v
  | some t => exact pairsOf_subset v t (List.mem_of_find?_eq_some hfind)

theorem naked_twin_apply_subset (g : Finset Square) (v : Finset ℕ)
    (b : SudokuBoard) : A2.naked_twin_apply g v b ⊆ v := by
  simp only [A2.naked_twin_apply]
  split
  · exact Finset.sdiff_subset
  · exact Finset.Subset.refl v

theorem only_squares_rule_refines (d : List (Square × Finset ℕ))
    (b : SudokuBoard) (q : Square × Finset ℕ) (hq : q ∈ A2.only_squares_rule d b) :
    ∃ p ∈ d, q.1 = p.1 ∧ q.2 ⊆ p.2 := by
  rw [A2.only_squares_rule, List.mem_map] at hq
  obtain ⟨p, hp, hfp⟩ := hq
  refine ⟨p, hp, ?_⟩
  subst hfp
  dsimp only
  split_ifs
  · exact ⟨rfl, Finset.Subset.refl _⟩
  · cases hfind : (A2.peer_groups p.1 b).find? _ with
    | none => exact ⟨rfl, Finset.Subset.refl _⟩
    | some g => exact ⟨rfl, Finset.inter_subset_left⟩

theorem hidden_twin_rule_refines (d : List (Square × Finset ℕ))
    (b : SudokuBoard) (q : Square × Finset ℕ) (hq : q ∈ A2.hidden_twin_rule d b) :
    ∃ p ∈ d, q.1 = p.1 ∧ q.2 ⊆ p.2 := by
  rw [A2.hidden_twin_rule, List.mem_map] at hq
  obtain ⟨p, hp, hfp⟩ := hq
  refine ⟨p, hp, ?_⟩
  subst hfp
  dsimp only
  split_ifs
  · exact ⟨rfl, Finset.Subset.refl _⟩
  · cases hfind : List.find? _ _ with
    | none => exact ⟨rfl, Finset.Subset.refl _⟩
    | some g => exact ⟨rfl, Finset.inter_subset_left⟩

theorem naked_twin_rule_refines (d : List (Square × Finset ℕ))
    (b : SudokuBoard) (q : Square × Finset ℕ) (hq : q ∈ A2.naked_twin_rule d b) :
    ∃ p ∈ d, q.1 = p.1 ∧ q.2 ⊆ p.2 := by
  rw [A2.naked_twin_rule, List.mem_map] at hq
  obtain ⟨p, hp, hfp⟩ := hq
  refine ⟨p, hp, ?_⟩
  subst hfp
  dsimp only
  split_ifs
  · exact ⟨rfl, Finset.Subset.refl _⟩
  · cases hfind : List.find? _ _ with
    | none => exact ⟨rfl, Finset.Subset.refl _⟩
    | some g => exact ⟨rfl, naked_twin_apply_subset g p.2 b⟩

theorem dict_insert_sound (P : Square → ℕ → Prop) (d : List (Square × Finset ℕ))
    (sq : Square) (v : ℕ)
    (hd : ∀ q ∈ d, ∀ w ∈ q.2, P q.1 w) (hv : P sq v) :
    ∀ q ∈ A2.dict_insert d sq v, ∀ w ∈ q.2, P q.1 w := by
  unfold A2.dict_insert
  split_ifs
  · intro q hq w hw
    rw [List.mem_map] at hq
    obtain ⟨p, hp, hfp⟩ := hq
    by_cases hpsq : p.1 = sq
    · rw [if_pos hpsq] at hfp
      subst hfp
      rcases Finset.mem_insert.mp hw with rfl | hw'
      · rw [hpsq]
        exact hv
      · exact hd p hp w hw'
    · rw [if_neg hpsq] at hfp
      subst hfp
      exact hd p hp w hw
  · intro q hq w hw
    rcases List.mem_append.mp hq with hq' | hq'
    · exact hd q hq' w hw
    · rw [List.mem_singleton] at hq'
      subst hq'
      rw [Finset.mem_singleton] at hw
      subst hw
      exact hv

theorem moves_dict_sound (moves : List Move) :
    ∀ q ∈ A2.moves_dict moves, ∀ w ∈ q.2, (⟨q.1, w⟩ : Move) ∈ moves := by
  suffices h : ∀ (l d : List _), (∀ q ∈ d, ∀ w ∈ q.2, (⟨q.1, w⟩ : Move) ∈ moves) →
      (∀ mv ∈ l, mv ∈ moves) →
      ∀ q ∈ l.foldl (fun d mv => A2.dict_insert d mv.square mv.value) d,
        ∀ w ∈ q.2, (⟨q.1, w⟩ : Move) ∈ moves by
    exact h moves [] (by simp) (fun _ h => h)
  intro l
  induction l with
  | nil => exact fun d hd _ => hd
  | cons mv tl ih =>
    intro d hd hl
    simp only [List.foldl_cons]
    refine ih _ (dict_insert_sound (fun sq w => (⟨sq, w⟩ : Move) ∈ moves)
        d mv.square mv.value hd ?_)
      (fun x hx => hl x (List.mem_cons_of_mem _ hx))
    show (⟨mv.square, mv.value⟩ : Move) ∈ moves
    have hmveta : (⟨mv.square, mv.value⟩ : Move) = mv := rfl
    rw [hmveta]
    exact hl mv (List.mem_cons_self mv tl)

/-- **C4 (amended).** The constraint-pruning heuristic never enlarges the
move set on any board size — every output move is an input move, and each
of the three rules maps every dict entry to one with the same square and a
subset of its candidate values.  (The original claim's second half — that
pruning is the identity on boards below 4×4 — is refuted by
`C4_small_board_counterexample`: only the hidden-pair and naked-pair rules
are gated, by `N > 4`; subgroup exclusion runs at every size.) -/
theorem C4_heuristics_subset (moves : List Move) (gs : GameState) :
    (∀ mv ∈ A2.sudoku_heuristics moves gs, mv ∈ moves)
      ∧ (∀ (d : List (Square × Finset ℕ)) (q : Square × Finset ℕ),
          q ∈ A2.only_squares_rule d gs.board → ∃ p ∈ d, q.1 = p.1 ∧ q.2 ⊆ p.2)
      ∧ (∀ (d : List (Square × Finset ℕ)) (q : Square × Finset ℕ),
          q ∈ A2.hidden_twin_rule d gs.board → ∃ p ∈ d, q.1 = p.1 ∧ q.2 ⊆ p.2)
      ∧ (∀ (d : List (Square × Finset ℕ)) (q : Square × Finset ℕ),
          q ∈ A2.naked_twin_rule d gs.board → ∃ p ∈ d, q.1 = p.1 ∧ q.2 ⊆ p.2) := by
  refine ⟨?_, fun d q => only_squares_rule_refines d gs.board q,
    fun d q => hidden_twin_rule_refines d gs.board q,
    fun d q => naked_twin_rule_refines d gs.board q⟩
  intro mv hmv
  rw [A2.sudoku_heuristics, List.mem_flatMap] at hmv
  obtain ⟨q, hq, hmvq⟩ := hmv
  rw [List.mem_map] at hmvq
  obtain ⟨v, hv, rfl⟩ := hmvq
  rw [mem_elems_iff] at hv
  have hchain : ∃ p ∈ A2.moves_dict moves, q.1 = p.1 ∧ q.2 ⊆ p.2 := by
    by_cases h4 : 4 < gs.board.N
    · rw [if_pos h4] at hq
      obtain ⟨p3, hp3, he3, hs3⟩ := naked_twin_rule_refines _ gs.board q hq
      obtain ⟨p2, hp2, he2, hs2⟩ := hidden_twin_rule_refines _ gs.board p3 hp3
      obtain ⟨p1, hp1, he1, hs1⟩ := only_squares_rule_refines _ gs.board p2 hp2
      exact ⟨p1, hp1, he3.trans (he2.trans he1),
        hs3.trans (hs2.trans hs1)⟩
    · rw [if_neg h4] at hq
      exact only_squares_rule_refines _ gs.board q hq
  obtain ⟨p, hp, he, hs⟩ := hchain
  have := moves_dict_sound moves p hp v (hs hv)
  rw [← he] at this
  exact this

/-- A fresh-ish 2×2-board state (below the 4×4 threshold) on which pruning
is not the identity. -/
def sampleStateA2 : GameState := ⟨⟨1, 2, [0, 0, 0, 2]⟩, [], [], [0, 0], [], [], 1⟩

/-- **C4 counterexample.** On a 2×2 board (below the claimed 4×4
threshold) the heuristic is not the identity: the subgroup-exclusion rule
still fires and removes `((0,0), 1)` from the move set. -/
theorem C4_small_board_counterexample :
    sampleStateA2.board.N < 4
      ∧ (⟨(0, 0), 1⟩ : Move) ∈ [(⟨(0, 0), 1⟩ : Move), ⟨(0, 0), 2⟩]
      ∧ (⟨(0, 0), 1⟩ : Move) ∉
          A2.sudoku_heuristics [⟨(0, 0), 1⟩, ⟨(0, 0), 2⟩] sampleStateA2 := by
  decide

theorem C4_heuristics_subset_witness :
    (⟨(0, 0), 2⟩ : Move) ∈
        A2.sudoku_heuristics [⟨(0, 0), 1⟩, ⟨(0, 0), 2⟩] sampleStateA2
      ∧ (⟨(0, 0), 2⟩ : Move) ∈ [(⟨(0, 0), 1⟩ : Move), ⟨(0, 0), 2⟩] :=
  ⟨by decide,
    (C4_heuristics_subset [⟨(0, 0), 1⟩, ⟨(0, 0), 2⟩] sampleStateA2).1
      ⟨(0, 0), 2⟩ (by decide)⟩

/-! ## Claim C5: alpha-beta search versus naive minimax

`team42_A0/sudokuai.py` implements naive `_minimax` (sentinel initial
values `-1e9` / `1e9`); `team42_A1/sudokuai.py` implements
`_minimax_alphabeta` (initial bounds `-math.inf` / `math.inf`).  Python
floats carrying `±inf` are embedded as `ERat`, rationals with both
infinities adjoined; the finite arithmetic of the evaluator is exact
rational arithmetic.  A0's `check_legal_moves` module and A1's
`evaluation` module are not among the sources; per the spec (§4.1, §4.3,
one contract shared by the near-duplicate variants) both searches are
modelled over the common legal-move generator and evaluator embedded
here. -/

/-- Rationals with `-inf` and `+inf` adjoined: the value domain of the
searches (Python floats including `±math.inf`). -/
abbrev ERat : Type := WithBot (WithTop ℚ)

/-- A finite rational as an `ERat`. -/
def ERat.ofQ (q : ℚ) : ERat := ((q : WithTop ℚ) : ERat)

/-- The number of squares `player_squares()` reports for player `p`
(`evaluation.py` temporarily sets `current_player := p` before querying;
Python would raise on a `None` result, which no theorem below exercises). -/
def player_space (ps : PlayerSquares) (s : GameState) (p : ℕ) : ℕ :=
  ((ps { s with current_player := p }).getD []).length

/-- `_get_space_value` (`team42_A0/evaluation.py`). -/
def get_space_value (ps : PlayerSquares) (s : GameState) : ℚ :=
  ((player_space ps s 1 : ℚ) - (player_space ps s 2 : ℚ)) / (s.board.N : ℚ)

/-- `evaluate_state` (`team42_A0/evaluation.py`): score differential plus
the space term. -/
def evaluate_state (ps : PlayerSquares) (s : GameState) : ℚ :=
  ((s.scores.getD 0 0 - s.scores.getD 1 0 : ℤ) : ℚ) + get_space_value ps s

/-- The `1e9` sentinel of A0's naive minimax. -/
def BILLION : ℚ := 10 ^ 9

/-- `_minimax` (`team42_A0/sudokuai.py`): naive minimax with sentinel
initial values `-1e9` / `1e9`. -/
def minimax (ps : PlayerSquares) : ℕ → GameState → Bool → ℚ
  | 0, s, _ => evaluate_state ps s
  | d + 1, s, maxi =>
    let legal := A1.get_legal_moves ps s
    if legal = [] then evaluate_state ps s
    else if maxi then
      legal.foldl (fun value mv =>
        max value (minimax ps d (A1.make_move s mv) false)) (-BILLION)
    else
      legal.foldl (fun value mv =>
        min value (minimax ps d (A1.make_move s mv) true)) BILLION

/-- The maximizing loop of `_minimax_alphabeta`: fold the children,
updating `value` and `alpha`, breaking once `value >= beta`. -/
def abMaxLoop (f : GameState → ERat → ERat) (beta : ERat) :
    List GameState → ERat → ERat → ERat
  | [], value, _ => value
  | c :: rest, value, alpha =>
    let v := max value (f c alpha)
    let a := max alpha v
    if beta ≤ v then v else abMaxLoop f beta rest v a

/-- The minimizing loop of `_minimax_alphabeta`: fold the children,
updating `value` and `beta`, breaking once `value <= alpha`. -/
def abMinLoop (f : GameState → ERat → ERat) (alpha : ERat) :
    List GameState → ERat → ERat → ERat
  | [], value, _ => value
  | c :: rest, value, beta =>
    let v := min value (f c beta)
    let b := min beta v
    if v ≤ alpha then v else abMinLoop f alpha rest v b

/-- `_minimax_alphabeta` (`team42_A1/sudokuai.py`): alpha-beta search with
initial bounds `-inf` / `inf`. -/
def alphabeta (ps : PlayerSquares) : ℕ → GameState → ERat → ERat → Bool → ERat
  | 0, s, _, _, _ => ERat.ofQ (evaluate_state ps s)
  | d + 1, s, alpha, beta, maxi =>
    let legal := A1.get_legal_moves ps s
    if legal = [] then ERat.ofQ (evaluate_state ps s)
    else if maxi then
      abMaxLoop (fun c a => alphabeta ps d c a beta false) beta
        (legal.map (fun mv => A1.make_move s mv)) ⊥ alpha
    else
      abMinLoop (fun c b => alphabeta ps d c alpha b true) alpha
        (legal.map (fun mv => A1.make_move s mv)) ⊤ beta

/-- Reference minimax value over `ERat` with `-inf` / `inf` initial
accumulators (no sentinels, no pruning); the common specification both
searches are compared against. -/
def mmE (ps : PlayerSquares) : ℕ → GameState → Bool → ERat
  | 0, s, _ => ERat.ofQ (evaluate_state ps s)
  | d + 1, s, maxi =>
    let legal := A1.get_legal_moves ps s
    if legal = [] then ERat.ofQ (evaluate_state ps s)
    else if maxi then
      (legal.map (fun mv => mmE ps d (A1.make_move s mv) false)).foldl max ⊥
    else
      (legal.map (fun mv => mmE ps d (A1.make_move s mv) true)).foldl min ⊤

/-- All static evaluations in the search tree explored from `s` to depth
`d` lie strictly inside `(-1e9, 1e9)`; true of every state reachable in
actual play, where scores are bounded by the board area times 7. -/
def EvalBounded (ps : PlayerSquares) : ℕ → GameState → Prop
  | 0, s => -BILLION < evaluate_state ps s ∧ evaluate_state ps s < BILLION
  | d + 1, s =>
    if A1.get_legal_moves ps s = [] then
      -BILLION < evaluate_state ps s ∧ evaluate_state ps s < BILLION
    else ∀ mv ∈ A1.get_legal_moves ps s, EvalBounded ps d (A1.make_move s mv)

instance EvalBounded.dec (ps : PlayerSquares) :
    (d : ℕ) → (s : GameState) → Decidable (EvalBounded ps d s)
  | 0, s => by
    unfold EvalBounded
    infer_instance
  | d + 1, s => by
    unfold EvalBounded
    have hrec : DecidablePred (fun mv => EvalBounded ps d (A1.make_move s mv)) :=
      fun mv => EvalBounded.dec ps d (A1.make_move s mv)
    split_ifs
    · infer_instance
    · exact List.decidableBAll _ _

theorem ERat.ofQ_le_ofQ {a b : ℚ} : ERat.ofQ a ≤ ERat.ofQ b ↔ a ≤ b := by
  simp [ERat.ofQ]

theorem ERat.ofQ_lt_ofQ {a b : ℚ} : ERat.ofQ a < ERat.ofQ b ↔ a < b := by
  simp [ERat.ofQ]

theorem ERat.bot_lt_ofQ (q : ℚ) : (⊥ : ERat) < ERat.ofQ q :=
  WithBot.bot_lt_coe _

theorem ERat.ofQ_lt_top (q : ℚ) : ERat.ofQ q < (⊤ : ERat) := by
  have h : ((⊤ : WithTop ℚ) : ERat) = (⊤ : ERat) := rfl
  rw [← h, ERat.ofQ, WithBot.coe_lt_coe]
  exact WithTop.coe_lt_top q

theorem ERat.max_ofQ (a b : ℚ) :
    max (ERat.ofQ a) (ERat.ofQ b) = ERat.ofQ (max a b) := by
  rcases le_total a b with h | h
  · rw [max_eq_right h, max_eq_right (ERat.ofQ_le_ofQ.mpr h)]
  · rw [max_eq_left h, max_eq_left (ERat.ofQ_le_ofQ.mpr h)]

theorem ERat.min_ofQ (a b : ℚ) :
    min (ERat.ofQ a) (ERat.ofQ b) = ERat.ofQ (min a b) := by
  rcases le_total a b with h | h
  · rw [min_eq_left h, min_eq_left (ERat.ofQ_le_ofQ.mpr h)]
  · rw [min_eq_right h, min_eq_right (ERat.ofQ_le_ofQ.mpr h)]

theorem le_foldl_max {γ : Type} [LinearOrder γ] (l : List γ) (i : γ) :
    i ≤ l.foldl max i := by
  induction l generalizing i with
  | nil => exact le_refl i
  | cons x xs ih => exact le_trans (le_max_left i x) (ih (max i x))

theorem foldl_min_le {γ : Type} [LinearOrder γ] (l : List γ) (i : γ) :
    l.foldl min i ≤ i := by
  induction l generalizing i with
  | nil => exact le_refl i
  | cons x xs ih => exact le_trans (ih (min i x)) (min_le_left i x)

theorem foldl_max_lt {γ : Type} [LinearOrder γ] (l : List γ) (i b : γ)
    (hi : i < b) (hl : ∀ x ∈ l, x < b) : l.foldl max i < b := by
  induction l generalizing i with
  | nil => exact hi
  | cons x xs ih =>
    exact ih (max i x) (max_lt hi (hl x (List.mem_cons_self x xs)))
      (fun y hy => hl y (List.mem_cons_of_mem x hy))

theorem lt_foldl_min {γ : Type} [LinearOrder γ] (l : List γ) (i b : γ)
    (hi : b < i) (hl : ∀ x ∈ l, b < x) : b < l.foldl min i := by
  induction l generalizing i with
  | nil => exact hi
  | cons x xs ih =>
    exact ih (min i x) (lt_min hi (hl x (List.mem_cons_self x xs)))
      (fun y hy => hl y (List.mem_cons_of_mem x hy))

theorem foldl_max_ofQ (l : List ℚ) (q : ℚ) :
    (l.map ERat.ofQ).foldl max (ERat.ofQ q) = ERat.ofQ (l.foldl max q) := by
  induction l generalizing q with
  | nil => rfl
  | cons x xs ih =>
    simp only [List.map_cons, List.foldl_cons, ERat.max_ofQ]
    exact ih (max q x)

theorem foldl_min_ofQ (l : List ℚ) (q : ℚ) :
    (l.map ERat.ofQ).foldl min (ERat.ofQ q) = ERat.ofQ (l.foldl min q) := by
  induction l generalizing q with
  | nil => rfl
  | cons x xs ih =>
    simp only [List.map_cons, List.foldl_cons, ERat.min_ofQ]
    exact ih (min q x)

theorem fold_bridge_max (r : ℚ) (rest : List ℚ) (hr : -BILLION < r) :
    ((r :: rest).map ERat.ofQ).foldl max ⊥
      = ERat.ofQ ((r :: rest).foldl max (-BILLION)) := by
  simp only [List.map_cons, List.foldl_cons, max_eq_right (bot_le : (⊥ : ERat) ≤ _),
    max_eq_right (le_of_lt hr)]
  exact foldl_max_ofQ rest r

theorem fold_bridge_min (r : ℚ) (rest : List ℚ) (hr : r < BILLION) :
    ((r :: rest).map ERat.ofQ).foldl min ⊤
      = ERat.ofQ ((r :: rest).foldl min BILLION) := by
  simp only [List.map_cons, List.foldl_cons, min_eq_right (le_top : _ ≤ (⊤ : ERat)),
    min_eq_right (le_of_lt hr)]
  exact foldl_min_ofQ rest r

theorem minimax_succ (ps : PlayerSquares) (d : ℕ) (s : GameState) (maxi : Bool) :
    minimax ps (d + 1) s maxi =
      (if A1.get_legal_moves ps s = [] then evaluate_state ps s
       else if maxi then
         (A1.get_legal_moves ps s).foldl (fun value mv =>
           max value (minimax ps d (A1.make_move s mv) false)) (-BILLION)
       else
         (A1.get_legal_moves ps s).foldl (fun value mv =>
           min value (minimax ps d (A1.make_move s mv) true)) BILLION) := rfl

theorem mmE_succ (ps : PlayerSquares) (d : ℕ) (s : GameState) (maxi : Bool) :
    mmE ps (d + 1) s maxi =
      (if A1.get_legal_moves ps s = [] then ERat.ofQ (evaluate_state ps s)
       else if maxi then
         ((A1.get_legal_moves ps s).map (fun mv =>
           mmE ps d (A1.make_move s mv) false)).foldl max ⊥
       else
         ((A1.get_legal_moves ps s).map (fun mv =>
           mmE ps d (A1.make_move s mv) true)).foldl min ⊤) := rfl

theorem alphabeta_succ (ps : PlayerSquares) (d : ℕ) (s : GameState)
    (alpha beta : ERat) (maxi : Bool) :
    alphabeta ps (d + 1) s alpha beta maxi =
      (if A1.get_legal_moves ps s = [] then ERat.ofQ (evaluate_state ps s)
       else if maxi then
         abMaxLoop (fun c a => alphabeta ps d c a beta false) beta
           ((A1.get_legal_moves ps s).map (fun mv => A1.make_move s mv)) ⊥ alpha
       else
         abMinLoop (fun c b => alphabeta ps d c alpha b true) alpha
           ((A1.get_legal_moves ps s).map (fun mv => A1.make_move s mv)) ⊤ beta) := rfl

theorem minimax_bounded_eq (ps : PlayerSquares) :
    ∀ (d : ℕ) (s : GameState) (maxi : Bool), EvalBounded ps d s →
      (-BILLION < minimax ps d s maxi ∧ minimax ps d s maxi < BILLION)
        ∧ mmE ps d s maxi = ERat.ofQ (minimax ps d s maxi) := by
  intro d
  induction d with
  | zero =>
    intro s maxi hb
    unfold EvalBounded at hb
    exact ⟨hb, rfl⟩
  | succ d ih =>
    intro s maxi hb
    unfold EvalBounded at hb
    rw [minimax_succ, mmE_succ]
    by_cases hleg : A1.get_legal_moves ps s = []
    · rw [if_pos hleg] at hb ⊢
      rw [if_pos hleg]
      exact ⟨hb, rfl⟩
    · rw [if_neg hleg] at hb
      rw [if_neg hleg, if_neg hleg]
      have hBB : -BILLION < BILLION := by norm_num [BILLION]
      obtain ⟨mv0, rest, hlegeq⟩ := List.exists_cons_of_ne_nil hleg
      cases maxi with
      | true =>
        simp only [if_true]
        rw [← List.foldl_map (fun mv => minimax ps d (A1.make_move s mv) false) max]
        have hmapeq : (A1.get_legal_moves ps s).map (fun mv =>
            mmE ps d (A1.make_move s mv) false)
            = ((A1.get_legal_moves ps s).map (fun mv =>
                minimax ps d (A1.make_move s mv) false)).map ERat.ofQ := by
          rw [List.map_map]
          exact List.map_congr_left (fun mv hmv => (ih _ false (hb mv hmv)).2)
        rw [hmapeq]
        have hbound : ∀ x ∈ (A1.get_legal_moves ps s).map (fun mv =>
            minimax ps d (A1.make_move s mv) false),
            -BILLION < x ∧ x < BILLION := by
          intro x hx
          rw [List.mem_map] at hx
          obtain ⟨mv, hmv, rfl⟩ := hx
          exact (ih _ false (hb mv hmv)).1
        rw [hlegeq] at hbound ⊢
        simp only [List.map_cons] at hbound ⊢
        set r0 := minimax ps d (A1.make_move s mv0) false with hr0
        set rs := rest.map (fun mv => minimax ps d (A1.make_move s mv) false) with hrs
        have hr0B : -BILLION < r0 ∧ r0 < BILLION :=
          hbound r0 (List.mem_cons_self _ _)
        refine ⟨⟨?_, ?_⟩, fold_bridge_max r0 rs hr0B.1⟩
        · have h1 : (r0 :: rs).foldl max (-BILLION) = rs.foldl max r0 := by
            simp only [List.foldl_cons, max_eq_right (le_of_lt hr0B.1)]
          rw [h1]
          exact lt_of_lt_of_le hr0B.1 (le_foldl_max rs r0)
        · exact foldl_max_lt (r0 :: rs) (-BILLION) BILLION hBB
            (fun x hx => (hbound x hx).2)
      | false =>
        simp only [Bool.false_eq_true, if_false]
        rw [← List.foldl_map (fun mv => minimax ps d (A1.make_move s mv) true) min]
        have hmapeq : (A1.get_legal_moves ps s).map (fun mv =>
            mmE ps d (A1.make_move s mv) true)
            = ((A1.get_legal_moves ps s).map (fun mv =>
                minimax ps d (A1.make_move s mv) true)).map ERat.ofQ := by
          rw [List.map_map]
          exact List.map_congr_left (fun mv hmv => (ih _ true (hb mv hmv)).2)
        rw [hmapeq]
        have hbound : ∀ x ∈ (A1.get_legal_moves ps s).map (fun mv =>
            minimax ps d (A1.make_move s mv) true),
            -BILLION < x ∧ x < BILLION := by
          intro x hx
          rw [List.mem_map] at hx
          obtain ⟨mv, hmv, rfl⟩ := hx
          exact (ih _ true (hb mv hmv)).1
        rw [hlegeq] at hbound ⊢
        simp only [List.map_cons] at hbound ⊢
        set r0 := minimax ps d (A1.make_move s mv0) true with hr0
        set rs := rest.map (fun mv => minimax ps d (A1.make_move s mv) true) with hrs
        have hr0B : -BILLION < r0 ∧ r0 < BILLION :=
          hbound r0 (List.mem_cons_self _ _)
        refine ⟨⟨?_, ?_⟩, fold_bridge_min r0 rs hr0B.2⟩
        · exact lt_foldl_min (r0 :: rs) BILLION (-BILLION) hBB
            (fun x hx => (hbound x hx).1)
        · have h1 : (r0 :: rs).foldl min BILLION = rs.foldl min r0 := by
            simp only [List.foldl_cons, min_eq_right (le_of_lt hr0B.2)]
          rw [h1]
          exact lt_of_le_of_lt (foldl_min_le rs r0) hr0B.2

/-- Fail-soft Knuth–Moore invariant for the maximizing alpha-beta loop:
relative to the true child values `g`, the loop's result is exact when it
lands strictly between `alpha0` and `beta`, an upper bound on the true
maximum when it fails low, and a lower bound when it fails high. -/
theorem abMaxLoop_km (f : GameState → ERat → ERat) (g : GameState → ERat)
    (beta : ERat)
    (hf : ∀ c a, a < beta →
      (f c a ≤ a → g c ≤ f c a) ∧ (beta ≤ f c a → f c a ≤ g c)
        ∧ (a < f c a → f c a < beta → f c a = g c)) :
    ∀ (cs : List GameState) (value alpha0 V : ERat),
      V ≤ value → value ≤ max alpha0 V → value < beta → alpha0 < beta →
      ((abMaxLoop f beta cs value (max alpha0 value) ≤ alpha0 →
          (cs.map g).foldl max V ≤ abMaxLoop f beta cs value (max alpha0 value))
        ∧ (beta ≤ abMaxLoop f beta cs value (max alpha0 value) →
          abMaxLoop f beta cs value (max alpha0 value) ≤ (cs.map g).foldl max V)
        ∧ (alpha0 < abMaxLoop f beta cs value (max alpha0 value) →
          abMaxLoop f beta cs value (max alpha0 value) < beta →
          abMaxLoop f beta cs value (max alpha0 value) = (cs.map g).foldl max V)) := by
  intro cs
  induction cs with
  | nil =>
    intro value alpha0 V hVv hvmax hvb ha0b
    simp only [abMaxLoop, List.map_nil, List.foldl_nil]
    refine ⟨fun _ => hVv, fun h => absurd h (not_le.mpr hvb), fun h1 _ => ?_⟩
    rcases le_max_iff.mp hvmax with h | h
    · exact absurd h1 (not_lt.mpr h)
    · exact le_antisymm h hVv
  | cons c rest ih =>
    intro value alpha0 V hVv hvmax hvb ha0b
    have hab : max alpha0 value < beta := max_lt ha0b hvb
    obtain ⟨hc1, hc2, hc3⟩ := hf c (max alpha0 value) hab
    simp only [abMaxLoop, List.map_cons, List.foldl_cons]
    set rc := f c (max alpha0 value) with hrc
    set v := max value rc with hv
    by_cases hbv : beta ≤ v
    · rw [if_pos hbv]
      have hbrc : beta ≤ rc := by
        by_contra h
        exact absurd hbv (not_le.mpr (max_lt hvb (not_le.mp h)))
      have hvrc : v = rc := max_eq_right (le_trans (le_of_lt hvb) hbrc)
      refine ⟨fun h => absurd ha0b (not_lt.mpr (le_trans hbv h)),
        fun _ => ?_, fun _ h2 => absurd hbv (not_le.mpr h2)⟩
      rw [hvrc]
      exact le_trans (hc2 hbrc)
        (le_trans (le_max_right V (g c)) (le_foldl_max _ _))
    · rw [if_neg hbv]
      have hvb' : v < beta := not_le.mp hbv
      have hgv : g c ≤ v := by
        rcases le_or_lt rc (max alpha0 value) with h | h
        · exact le_trans (hc1 h) (le_max_right value rc)
        · rcases lt_or_le rc beta with h2 | h2
          · rw [← hc3 h h2]
            exact le_max_right value rc
          · exact absurd (le_trans h2 (le_max_right value rc)) hbv
      have ha' : max (max alpha0 value) v = max alpha0 v := by
        rw [max_assoc, max_eq_right (le_max_left value rc)]
      have hV'v : max V (g c) ≤ v :=
        max_le (le_trans hVv (le_max_left value rc)) hgv
      have hvmax' : v ≤ max alpha0 (max V (g c)) := by
        refine max_le ?_ ?_
        · exact le_trans hvmax
            (max_le_max (le_refl alpha0) (le_max_left V (g c)))
        · rcases le_or_lt rc (max alpha0 value) with h | h
          · have hA : max alpha0 value ≤ max alpha0 V :=
              max_le (le_max_left _ _) hvmax
            exact le_trans (le_trans h hA)
              (max_le_max (le_refl alpha0) (le_max_left V (g c)))
          · rcases lt_or_le rc beta with h2 | h2
            · rw [hc3 h h2]
              exact le_trans (le_max_right V (g c)) (le_max_right alpha0 _)
            · exact absurd (le_trans h2 (le_max_right value rc)) hbv
      have hres := ih v alpha0 (max V (g c)) hV'v hvmax' hvb' ha0b
      rw [ha']
      exact hres

/-- The dual Knuth–Moore invariant for the minimizing alpha-beta loop. -/
theorem abMinLoop_km (f : GameState → ERat → ERat) (g : GameState → ERat)
    (alpha : ERat)
    (hf : ∀ c b, alpha < b →
      (f c b ≤ alpha → g c ≤ f c b) ∧ (b ≤ f c b → f c b ≤ g c)
        ∧ (alpha < f c b → f c b < b → f c b = g c)) :
    ∀ (cs : List GameState) (value beta0 V : ERat),
      value ≤ V → min beta0 V ≤ value → alpha < value → alpha < beta0 →
      ((abMinLoop f alpha cs value (min beta0 value) ≤ alpha →
          (cs.map g).foldl min V ≤ abMinLoop f alpha cs value (min beta0 value))
        ∧ (beta0 ≤ abMinLoop f alpha cs value (min beta0 value) →
          abMinLoop f alpha cs value (min beta0 value) ≤ (cs.map g).foldl min V)
        ∧ (alpha < abMinLoop f alpha cs value (min beta0 value) →
          abMinLoop f alpha cs value (min beta0 value) < beta0 →
          abMinLoop f alpha cs value (min beta0 value) = (cs.map g).foldl min V)) := by
  intro cs
  induction cs with
  | nil =>
    intro value beta0 V hvV hvmin hav ha0b
    simp only [abMinLoop, List.map_nil, List.foldl_nil]
    refine ⟨fun h => absurd h (not_le.mpr hav), fun _ => hvV, fun _ h2 => ?_⟩
    rcases min_le_iff.mp hvmin with h' | h'
    · exact absurd h2 (not_lt.mpr h')
    · exact le_antisymm hvV h'
  | cons c rest ih =>
    intro value beta0 V hvV hvmin hav ha0b
    have hab : alpha < min beta0 value := lt_min ha0b hav
    obtain ⟨hc1, hc2, hc3⟩ := hf c (min beta0 value) hab
    simp only [abMinLoop, List.map_cons, List.foldl_cons]
    set rc := f c (min beta0 value) with hrc
    set v := min value rc with hv
    by_cases hva : v ≤ alpha
    · rw [if_pos hva]
      have hrca : rc ≤ alpha := by
        by_contra h
        exact absurd hva (not_le.mpr (lt_min hav (not_le.mp h)))
      have hvrc : v = rc := min_eq_right (le_trans hrca (le_of_lt hav))
      refine ⟨fun _ => ?_, fun h => absurd ha0b (not_lt.mpr (le_trans h hva)),
        fun h1 _ => absurd hva (not_le.mpr h1)⟩
      rw [hvrc]
      exact le_trans (le_trans (foldl_min_le _ _) (min_le_right V (g c))) (hc1 hrca)
    · rw [if_neg hva]
      have hav' : alpha < v := not_le.mp hva
      have hvg : v ≤ g c := by
        rcases le_or_lt rc alpha with h | h
        · exact absurd (le_trans (min_le_right value rc) h) hva
        · rcases lt_or_le rc (min beta0 value) with h2 | h2
          · rw [← hc3 h h2]
            exact min_le_right value rc
          · exact le_trans (min_le_right value rc) (hc2 h2)
      have hb' : min (min beta0 value) v = min beta0 v := by
        rw [min_assoc, min_eq_right (min_le_left value rc)]
      have hvV' : v ≤ min V (g c) :=
        le_min (le_trans (min_le_left value rc) hvV) hvg
      have hvmin' : min beta0 (min V (g c)) ≤ v := by
        refine le_min ?_ ?_
        · exact le_trans
            (min_le_min (le_refl beta0) (min_le_left V (g c))) hvmin
        · rcases le_or_lt rc alpha with h | h
          · exact absurd (le_trans (min_le_right value rc) h) hva
          · rcases lt_or_le rc (min beta0 value) with h2 | h2
            · rw [hc3 h h2]
              exact le_trans (min_le_right beta0 _) (min_le_right V (g c))
            · have hA : min beta0 V ≤ min beta0 value :=
                le_min (min_le_left _ _) hvmin
              exact le_trans
                (le_trans (min_le_min (le_refl beta0) (min_le_left V (g c))) hA) h2
      have hres := ih v beta0 (min V (g c)) hvV' hvmin' hav' ha0b
      rw [hb']
      exact hres

/-- Knuth–Moore conditions for `_minimax_alphabeta` against the reference
value `mmE`, for every window `alpha < beta`. -/
theorem alphabeta_km (ps : PlayerSquares) :
    ∀ (d : ℕ) (s : GameState) (alpha beta : ERat) (maxi : Bool), alpha < beta →
      ((alphabeta ps d s alpha beta maxi ≤ alpha →
          mmE ps d s maxi ≤ alphabeta ps d s alpha beta maxi)
        ∧ (beta ≤ alphabeta ps d s alpha beta maxi →
          alphabeta ps d s alpha beta maxi ≤ mmE ps d s maxi)
        ∧ (alpha < alphabeta ps d s alpha beta maxi →
          alphabeta ps d s alpha beta maxi < beta →
          alphabeta ps d s alpha beta maxi = mmE ps d s maxi)) := by
  intro d
  induction d with
  | zero =>
    intro s alpha beta maxi hab
    exact ⟨fun _ => le_refl _, fun _ => le_refl _, fun _ _ => rfl⟩
  | succ d ih =>
    intro s alpha beta maxi hab
    rw [alphabeta_succ, mmE_succ]
    by_cases hleg : A1.get_legal_moves ps s = []
    · rw [if_pos hleg, if_pos hleg]
      exact ⟨fun _ => le_refl _, fun _ => le_refl _, fun _ _ => rfl⟩
    · rw [if_neg hleg, if_neg hleg]
      cases maxi with
      | true =>
        simp only [if_true]
        have hloop := abMaxLoop_km
          (fun c a => alphabeta ps d c a beta false)
          (fun c => mmE ps d c false) beta
          (fun c a ha => ih c a beta false ha)
          ((A1.get_legal_moves ps s).map (fun mv => A1.make_move s mv))
          ⊥ alpha ⊥ (le_refl ⊥) bot_le (lt_of_le_of_lt bot_le hab) hab
        rw [max_eq_left bot_le, List.map_map] at hloop
        exact hloop
      | false =>
        simp only [Bool.false_eq_true, if_false]
        have hloop := abMinLoop_km
          (fun c b => alphabeta ps d c alpha b true)
          (fun c => mmE ps d c true) alpha
          (fun c b hb => ih c alpha b true hb)
          ((A1.get_legal_moves ps s).map (fun mv => A1.make_move s mv))
          ⊤ beta ⊤ (le_refl ⊤) (min_le_right beta ⊤)
          (lt_of_lt_of_le hab le_top) hab
        rw [min_eq_left le_top, List.map_map] at hloop
        exact hloop

/-- At the root window `(-inf, inf)` alpha-beta returns exactly the
reference minimax value. -/
theorem alphabeta_eq_mmE (ps : PlayerSquares) (d : ℕ) (s : GameState)
    (maxi : Bool) : alphabeta ps d s ⊥ ⊤ maxi = mmE ps d s maxi := by
  obtain ⟨h1, h2, h3⟩ := alphabeta_km ps d s ⊥ ⊤ maxi bot_lt_top
  rcases le_or_lt (alphabeta ps d s ⊥ ⊤ maxi) ⊥ with h | h
  · have hmm := h1 h
    have hr : alphabeta ps d s ⊥ ⊤ maxi = ⊥ := le_bot_iff.mp h
    rw [hr] at hmm ⊢
    exact (le_bot_iff.mp hmm).symm
  · rcases le_or_lt ⊤ (alphabeta ps d s ⊥ ⊤ maxi) with h2t | h2t
    · have hmm := h2 h2t
      have hr : alphabeta ps d s ⊥ ⊤ maxi = ⊤ := top_le_iff.mp h2t
      rw [hr] at hmm ⊢
      exact (top_le_iff.mp hmm).symm
    · exact h3 h h2t

/-- **C5 (amended).** Alpha-beta at the root window and naive minimax
return the same value for the same state, depth and maximizing flag,
whenever every static evaluation met in the explored tree lies strictly
inside `(-1e9, 1e9)` — A0's sentinel initial values; this covers every
state arising in actual play.  (Without that proviso the claim fails:
`C5_sentinel_counterexample`.) -/
theorem C5_alphabeta_agrees_minimax (ps : PlayerSquares) (d : ℕ)
    (s : GameState) (maxi : Bool) (hb : EvalBounded ps d s) :
    alphabeta ps d s ⊥ ⊤ maxi = ERat.ofQ (minimax ps d s maxi) := by
  rw [alphabeta_eq_mmE]
  exact (minimax_bounded_eq ps d s maxi hb).2

theorem EvalBounded_zero (ps : PlayerSquares) (s : GameState) :
    EvalBounded ps 0 s
      = (-BILLION < evaluate_state ps s ∧ evaluate_state ps s < BILLION) := rfl

theorem EvalBounded_succ (ps : PlayerSquares) (d : ℕ) (s : GameState) :
    EvalBounded ps (d + 1) s
      = (if A1.get_legal_moves ps s = [] then
          -BILLION < evaluate_state ps s ∧ evaluate_state ps s < BILLION
        else ∀ mv ∈ A1.get_legal_moves ps s,
          EvalBounded ps d (A1.make_move s mv)) := rfl

theorem ERat.ofQ_inj {a b : ℚ} : ERat.ofQ a = ERat.ofQ b ↔ a = b := by
  simp [ERat.ofQ]

/-- An oracle whose allowed-squares answer is always the single square (0,0). -/
def psSingle : PlayerSquares := fun _ => some [(0, 0)]

/-- A 2×2-board state with an astronomically negative player-1 score
(beyond A0's `-1e9` sentinel) and exactly one legal move under `psSingle`. -/
def sHuge : GameState :=
  ⟨⟨1, 2, [0, 1, 0, 2]⟩, [], [], [-(2 * 10 ^ 9 : ℤ), 0], [], [(0, 1), (1, 1)], 1⟩

/-- The state after the single legal move of `sHuge`. -/
def cHuge : GameState :=
  ⟨⟨1, 2, [2, 1, 0, 2]⟩, [], [⟨(0, 0), 2⟩], [-(2 * 10 ^ 9 : ℤ) + 3, 0],
    [(0, 0)], [(0, 1), (1, 1)], 2⟩

theorem sHuge_legal : A1.get_legal_moves psSingle sHuge = [⟨(0, 0), 2⟩] := by
  decide

theorem sHuge_child : A1.make_move sHuge ⟨(0, 0), 2⟩ = cHuge := by decide

theorem cHuge_eval :
    evaluate_state psSingle cHuge = -(2 * 10 ^ 9 : ℚ) + 3 := by
  unfold evaluate_state get_space_value player_space psSingle cHuge
  norm_num [List.getD, SudokuBoard.N]

theorem sHuge_alphabeta :
    alphabeta psSingle 1 sHuge ⊥ ⊤ true
      = ERat.ofQ (-(2 * 10 ^ 9 : ℚ) + 3) := by
  have h1 : (1 : ℕ) = 0 + 1 := rfl
  rw [h1, alphabeta_succ, sHuge_legal]
  rw [if_neg (by decide : ¬ ([(⟨(0, 0), 2⟩ : Move)] = ([] : List Move)))]
  simp only [if_true, List.map_cons, List.map_nil, sHuge_child]
  simp only [abMaxLoop]
  have hstep : alphabeta psSingle 0 cHuge ⊥ ⊤ false
      = ERat.ofQ (evaluate_state psSingle cHuge) := rfl
  rw [hstep, cHuge_eval, max_eq_right bot_le,
    if_neg (not_le.mpr (ERat.ofQ_lt_top _))]

theorem sHuge_minimax : minimax psSingle 1 sHuge true = -BILLION := by
  have h1 : (1 : ℕ) = 0 + 1 := rfl
  rw [h1, minimax_succ, sHuge_legal]
  rw [if_neg (by decide : ¬ ([(⟨(0, 0), 2⟩ : Move)] = ([] : List Move)))]
  simp only [if_true, List.foldl_cons, List.foldl_nil]
  have hstep : minimax psSingle 0 (A1.make_move sHuge ⟨(0, 0), 2⟩) false
      = evaluate_state psSingle cHuge := by
    rw [sHuge_child]
    rfl
  rw [hstep, cHuge_eval]
  rw [max_eq_left (by norm_num [BILLION])]

/-- **C5 counterexample.** On a state whose evaluation falls below A0's
`-1e9` sentinel, alpha-beta (initialized at `-inf`) returns the true child
value while naive minimax clamps at `-1e9`: the two searches disagree on
the same state at the same depth. -/
theorem C5_sentinel_counterexample :
    alphabeta psSingle 1 sHuge ⊥ ⊤ true
      ≠ ERat.ofQ (minimax psSingle 1 sHuge true) := by
  rw [sHuge_alphabeta, sHuge_minimax]
  intro h
  have heq := ERat.ofQ_inj.mp h
  norm_num [BILLION] at heq

/-- `sHuge` with ordinary scores: a bounded one-move search tree. -/
def sBenign : GameState := ⟨⟨1, 2, [0, 1, 0, 2]⟩, [], [], [0, 0], [], [], 1⟩

theorem sBenign_legal : A1.get_legal_moves psSingle sBenign = [⟨(0, 0), 2⟩] := by
  decide

theorem sBenign_evalBounded : EvalBounded psSingle 1 sBenign := by
  have h1 : (1 : ℕ) = 0 + 1 := rfl
  rw [h1, EvalBounded_succ, sBenign_legal]
  rw [if_neg (by decide : ¬ ([(⟨(0, 0), 2⟩ : Move)] = ([] : List Move)))]
  intro mv hmv
  rw [List.mem_singleton] at hmv
  subst hmv
  rw [EvalBounded_zero]
  have hchild : A1.make_move sBenign ⟨(0, 0), 2⟩
      = ⟨⟨1, 2, [2, 1, 0, 2]⟩, [], [⟨(0, 0), 2⟩], [3, 0], [(0, 0)], [], 2⟩ := by
    decide
  rw [hchild]
  unfold evaluate_state get_space_value player_space psSingle
  constructor <;> norm_num [List.getD, SudokuBoard.N, BILLION]

theorem C5_alphabeta_agrees_minimax_witness :
    EvalBounded psSingle 1 sBenign
      ∧ alphabeta psSingle 1 sBenign ⊥ ⊤ true
          = ERat.ofQ (minimax psSingle 1 sBenign true) :=
  ⟨sBenign_evalBounded,
    C5_alphabeta_agrees_minimax psSingle 1 sBenign true sBenign_evalBounded⟩

/-! ## Claim C3: `_make_move` never mutates its input (heap model)

The pure embedding cannot express Python mutation, so the claim is settled
on a small object-heap model: objects live at addresses, `copy.deepcopy`
allocates fresh copies of the `GameState` record and of every mutable
sub-object reachable from it, and the subsequent statements of
`_make_move` write only to those fresh addresses.  The theorem shows that
every pre-existing address — the input state and all of its sub-objects —
holds exactly the same object afterwards, and that the returned state and
all of its mutable sub-objects live at fresh addresses, so the result
shares no mutable aliasing with the input. -/

namespace Heap

/-- A heap object: one of the mutable constituents of a Python
`GameState` (containers store values inline; records store references). -/
inductive HObj : Type
  | natList (xs : List ℕ)
  | intList (xs : List ℤ)
  | moveList (xs : List Move)
  | sqList (xs : List Square)
  | board (m n : ℕ) (squaresRef : ℕ)
  | state (boardRef movesRef scoresRef occ1Ref occ2Ref : ℕ) (currentPlayer : ℕ)
  deriving DecidableEq, Repr

/-- The heap: the object at address `a` is `h[a]?`; allocation appends. -/
abbrev Heap : Type := List HObj

/-- The reference fields of a `GameState` object. -/
structure StateRefs where
  bRef : ℕ
  mRef : ℕ
  sRef : ℕ
  o1Ref : ℕ
  o2Ref : ℕ
  cp : ℕ
  deriving DecidableEq, Repr

/-- The fields of a `SudokuBoard` object. -/
structure BoardObj where
  bm : ℕ
  bn : ℕ
  sqRef : ℕ
  deriving DecidableEq, Repr

def readState (h : Heap) (a : ℕ) : Option StateRefs :=
  match h[a]? with
  | some (.state b m s o1 o2 cp) => some ⟨b, m, s, o1, o2, cp⟩
  | _ => none

def readBoard (h : Heap) (a : ℕ) : Option BoardObj :=
  match h[a]? with
  | some (.board m n sq) => some ⟨m, n, sq⟩
  | _ => none

def readNatList (h : Heap) (a : ℕ) : Option (List ℕ) :=
  match h[a]? with
  | some (.natList xs) => some xs
  | _ => none

def readIntList (h : Heap) (a : ℕ) : Option (List ℤ) :=
  match h[a]? with
  | some (.intList xs) => some xs
  | _ => none

def readMoveList (h : Heap) (a : ℕ) : Option (List Move) :=
  match h[a]? with
  | some (.moveList xs) => some xs
  | _ => none

def readSqList (h : Heap) (a : ℕ) : Option (List Square) :=
  match h[a]? with
  | some (.sqList xs) => some xs
  | _ => none

/-- `copy.deepcopy(game_state)`: read the record and every reachable
mutable sub-object, then allocate fresh copies of all of them; returns
the modified heap and the fresh state's address. -/
def deepcopyGS (h : Heap) (g : ℕ) : Option (Heap × ℕ) := do
  let r ← readState h g
  let b ← readBoard h r.bRef
  let cells ← readNatList h b.sqRef
  let mvs ← readMoveList h r.mRef
  let sc ← readIntList h r.sRef
  let o1 ← readSqList h r.o1Ref
  let o2 ← readSqList h r.o2Ref
  let L := h.length
  return (h ++ [.natList cells, .board b.bm b.bn L, .moveList mvs,
    .intList sc, .sqList o1, .sqList o2,
    .state (L + 1) (L + 2) (L + 3) (L + 4) (L + 5) r.cp], L + 6)

/-- `_make_move` on the heap: deepcopy, then perform the source's
mutations on the fresh copy — write the value into the board's cell list,
append to the move history, add the region bonus to the mover's score
entry, append the square to the mover's occupied list, and flip the
current player field. -/
def makeMoveH (h : Heap) (g : ℕ) (mv : Move) : Option (Heap × ℕ) := do
  let (h1, gNew) ← deepcopyGS h g
  let r ← readState h1 gNew
  let b ← readBoard h1 r.bRef
  let cells ← readNatList h1 b.sqRef
  let cells' := cells.set (mv.square.1 * (b.bm * b.bn) + mv.square.2) mv.value
  let h2 := h1.set b.sqRef (.natList cells')
  let mvs ← readMoveList h2 r.mRef
  let h3 := h2.set r.mRef (.moveList (mvs ++ [mv]))
  let sc ← readIntList h3 r.sRef
  let ms := A1.move_score ⟨b.bm, b.bn, cells'⟩ mv.square
  let idx := r.cp - 1
  let h4 := h3.set r.sRef (.intList (sc.set idx (sc.getD idx 0 + ms)))
  if r.cp = 1 then do
    let o1 ← readSqList h4 r.o1Ref
    let h5 := h4.set r.o1Ref (.sqList (o1 ++ [mv.square]))
    return (h5.set gNew (.state r.bRef r.mRef r.sRef r.o1Ref r.o2Ref (3 - r.cp)), gNew)
  else do
    let o2 ← readSqList h4 r.o2Ref
    let h5 := h4.set r.o2Ref (.sqList (o2 ++ [mv.square]))
    return (h5.set gNew (.state r.bRef r.mRef r.sRef r.o1Ref r.o2Ref (3 - r.cp)), gNew)

end Heap

theorem Heap.read_lt_length {h : Heap.Heap} {a : ℕ} {o : Heap.HObj}
    (heq : h[a]? = some o) : a < h.length := by
  by_contra hna
  rw [List.getElem?_eq_none (le_of_not_lt hna)] at heq
  exact Option.noConfusion heq

theorem Heap.deepcopy_spec (h : Heap.Heap) (g : ℕ) (h1 : Heap.Heap) (g1 : ℕ)
    (heq : Heap.deepcopyGS h g = some (h1, g1)) :
    ∃ cells bm bn mvs sc o1 o2 cp,
      h1 = h ++ [.natList cells, .board bm bn h.length, .moveList mvs,
        .intList sc, .sqList o1, .sqList o2,
        .state (h.length + 1) (h.length + 2) (h.length + 3) (h.length + 4)
          (h.length + 5) cp]
        ∧ g1 = h.length + 6 := by
  simp only [Heap.deepcopyGS, Bind.bind, Option.bind_eq_some, Option.pure_def,
    Option.some.injEq, Prod.mk.injEq] at heq
  obtain ⟨r, hr, b, hb, cells, hcells, mvs, hmvs, sc, hsc, o1, ho1, o2, ho2,
    hh, hg⟩ := heq
  exact ⟨cells, b.bm, b.bn, mvs, sc, o1, o2, r.cp, hh.symm, hg.symm⟩

/-- **C3.** `_make_move` never mutates its input: on the heap model, every
address existing before the call holds the same object afterwards (so every
field of the input state and all its sub-objects are unchanged), the
returned state is a freshly allocated object, and all of its mutable
sub-objects are fresh as well — the result shares no mutable aliasing with
the input. -/
theorem C3_make_move_no_mutation (h : Heap.Heap) (g : ℕ) (mv : Move)
    (h' : Heap.Heap) (g' : ℕ)
    (heq : Heap.makeMoveH h g mv = some (h', g')) :
    (∀ a, a < h.length → h'[a]? = h[a]?)
      ∧ h.length ≤ g'
      ∧ (∃ r : Heap.StateRefs,
          h'[g']? = some (.state r.bRef r.mRef r.sRef r.o1Ref r.o2Ref r.cp)
            ∧ h.length ≤ r.bRef ∧ h.length ≤ r.mRef ∧ h.length ≤ r.sRef
            ∧ h.length ≤ r.o1Ref ∧ h.length ≤ r.o2Ref) := by
  simp only [Heap.makeMoveH, Bind.bind, Option.bind_eq_some, Option.pure_def,
    Option.some.injEq, Prod.mk.injEq] at heq
  obtain ⟨⟨h1, gNew⟩, hdc, heq⟩ := heq
  obtain ⟨cells0, bm, bn, mvs0, sc0, o10, o20, cp0, hh1, hgNew⟩ :=
    Heap.deepcopy_spec h g h1 gNew hdc
  subst hh1
  subst hgNew
  set L := h.length with hL
  set block : List Heap.HObj := [.natList cells0, .board bm bn L,
    .moveList mvs0, .intList sc0, .sqList o10, .sqList o20,
    .state (L + 1) (L + 2) (L + 3) (L + 4) (L + 5) cp0] with hblock
  have e1 : Heap.readState (h ++ block) (L + 6) =
      some ⟨L + 1, L + 2, L + 3, L + 4, L + 5, cp0⟩ := by
    unfold Heap.readState
    rw [List.getElem?_append_right (by omega)]
    simp [hblock, hL]
  obtain ⟨r, hr, heq⟩ := heq
  rw [e1, Option.some.injEq] at hr
  subst hr
  obtain ⟨b, hb, heq⟩ := heq
  have e2 : Heap.readBoard (h ++ block) (L + 1) = some ⟨bm, bn, L⟩ := by
    unfold Heap.readBoard
    rw [List.getElem?_append_right (by omega)]
    simp [hblock, hL]
  rw [show (Heap.StateRefs.mk (L+1) (L+2) (L+3) (L+4) (L+5) cp0).bRef = L + 1
    from rfl, e2, Option.some.injEq] at hb
  subst hb
  obtain ⟨cells, hcells, heq⟩ := heq
  have e3 : Heap.readNatList (h ++ block) L = some cells0 := by
    unfold Heap.readNatList
    rw [List.getElem?_append_right (by omega)]
    simp [hblock, hL]
  rw [show (Heap.BoardObj.mk bm bn L).sqRef = L from rfl, e3,
    Option.some.injEq] at hcells
  subst hcells
  dsimp only at heq
  obtain ⟨mvs, hmvs, heq⟩ := heq
  have e4 : Heap.readMoveList
      ((h ++ block).set L (.natList (cells0.set
        (mv.square.1 * (bm * bn) + mv.square.2) mv.value))) (L + 2)
      = some mvs0 := by
    unfold Heap.readMoveList
    rw [List.getElem?_set_ne (by omega), List.getElem?_append_right (by omega)]
    simp [hblock, hL]
  rw [e4, Option.some.injEq] at hmvs
  subst hmvs
  obtain ⟨sc, hsc, heq⟩ := heq
  have e5 : Heap.readIntList
      (((h ++ block).set L (.natList (cells0.set
          (mv.square.1 * (bm * bn) + mv.square.2) mv.value))).set (L + 2)
        (.moveList (mvs0 ++ [mv]))) (L + 3)
      = some sc0 := by
    unfold Heap.readIntList
    rw [List.getElem?_set_ne (by omega), List.getElem?_set_ne (by omega),
      List.getElem?_append_right (by omega)]
    simp [hblock, hL]
  rw [e5, Option.some.injEq] at hsc
  subst hsc
  by_cases hcp : cp0 = 1
  · rw [if_pos hcp] at heq
    have e6 : Heap.readSqList
        ((((h ++ block).set L (.natList (cells0.set
            (mv.square.1 * (bm * bn) + mv.square.2) mv.value))).set (L + 2)
          (.moveList (mvs0 ++ [mv]))).set (L + 3)
          (.intList (sc0.set (cp0 - 1) (sc0.getD (cp0 - 1) 0
            + A1.move_score ⟨bm, bn, cells0.set
                (mv.square.1 * (bm * bn) + mv.square.2) mv.value⟩ mv.square))))
        (L + 4) = some o10 := by
      unfold Heap.readSqList
      rw [List.getElem?_set_ne (by omega), List.getElem?_set_ne (by omega),
        List.getElem?_set_ne (by omega), List.getElem?_append_right (by omega)]
      simp [hblock, hL]
    simp only [e6, Option.bind_eq_some, Option.some.injEq, Prod.mk.injEq,
      exists_eq_left] at heq
    obtain ⟨ov, hov, hH, hg⟩ := heq
    subst hov
    subst hH
    subst hg
    refine ⟨?_, by omega,
      ⟨⟨L + 1, L + 2, L + 3, L + 4, L + 5, 3 - cp0⟩, ?_,
        by dsimp only; omega, by dsimp only; omega, by dsimp only; omega,
        by dsimp only; omega, by dsimp only; omega⟩⟩
    · intro a ha
      rw [List.getElem?_set_ne (by omega), List.getElem?_set_ne (by omega),
        List.getElem?_set_ne (by omega), List.getElem?_set_ne (by omega),
        List.getElem?_set_ne (by omega), List.getElem?_append, if_pos ha]
    · rw [List.getElem?_set_eq_of_lt]
      simp [hblock, hL]
  · rw [if_neg hcp] at heq
    have e6 : Heap.readSqList
        ((((h ++ block).set L (.natList (cells0.set
            (mv.square.1 * (bm * bn) + mv.square.2) mv.value))).set (L + 2)
          (.moveList (mvs0 ++ [mv]))).set (L + 3)
          (.intList (sc0.set (cp0 - 1) (sc0.getD (cp0 - 1) 0
            + A1.move_score ⟨bm, bn, cells0.set
                (mv.square.1 * (bm * bn) + mv.square.2) mv.value⟩ mv.square))))
        (L + 5) = some o20 := by
      unfold Heap.readSqList
      rw [List.getElem?_set_ne (by omega), List.getElem?_set_ne (by omega),
        List.getElem?_set_ne (by omega), List.getElem?_append_right (by omega)]
      simp [hblock, hL]
    simp only [e6, Option.bind_eq_some, Option.some.injEq, Prod.mk.injEq,
      exists_eq_left] at heq
    obtain ⟨ov, hov, hH, hg⟩ := heq
    subst hov
    subst hH
    subst hg
    refine ⟨?_, by omega,
      ⟨⟨L + 1, L + 2, L + 3, L + 4, L + 5, 3 - cp0⟩, ?_,
        by dsimp only; omega, by dsimp only; omega, by dsimp only; omega,
        by dsimp only; omega, by dsimp only; omega⟩⟩
    · intro a ha
      rw [List.getElem?_set_ne (by omega), List.getElem?_set_ne (by omega),
        List.getElem?_set_ne (by omega), List.getElem?_set_ne (by omega),
        List.getElem?_set_ne (by omega), List.getElem?_append, if_pos ha]
    · rw [List.getElem?_set_eq_of_lt]
      simp [hblock, hL]

/-- A concrete 7-object heap holding one fresh 2×2-board game state. -/
def hW : Heap.Heap :=
  [.natList [0, 0, 0, 0], .board 1 2 0, .moveList [], .intList [0, 0],
   .sqList [], .sqList [], .state 1 2 3 4 5 1]

/-- The heap after `makeMoveH hW 6 ⟨(0,0),1⟩`: the original seven objects
unchanged, plus the mutated fresh copies. -/
def hW' : Heap.Heap :=
  [.natList [0, 0, 0, 0], .board 1 2 0, .moveList [], .intList [0, 0],
   .sqList [], .sqList [], .state 1 2 3 4 5 1,
   .natList [1, 0, 0, 0], .board 1 2 7, .moveList [⟨(0, 0), 1⟩],
   .intList [0, 0], .sqList [(0, 0)], .sqList [], .state 8 9 10 11 12 2]

theorem C3_make_move_no_mutation_witness :
    Heap.makeMoveH hW 6 ⟨(0, 0), 1⟩ = some (hW', 13) ∧ hW'[0]? = hW[0]? :=
  ⟨by decide,
    (C3_make_move_no_mutation hW 6 ⟨(0, 0), 1⟩ hW' 13 (by decide)).1 0 (by decide)⟩

/-! ## Claim C6: the cached UCT score

`_calculate_score` from `team42_A3_MCTS_simplified/monte_carlo_tree.py`
(the `team42_MCT` variant computes the same value, with the zero-visit
check placed after the `math.log` call).  A node's statistics are embedded
as a record; Python's float `math.inf`, `math.log` and `math.sqrt` are
idealized as `EReal`, `Real.log` and `Real.sqrt`. -/

/-- The statistics of an MCTS node consulted by `_calculate_score`. -/
structure MCNode where
  current_player : ℕ
  player1_wins : ℚ
  player2_wins : ℚ
  visit_count : ℕ
  is_root : Bool
  parent_visits : ℕ
  deriving DecidableEq, Repr

/-- `_calculate_score`: `0` on the root; `+inf` at zero visits; otherwise
`q / n + 2 * sqrt(ln(parent.visit_count) / n)`, where `q` is the
statistics-perspective player's win tally multiplied by `-1` when the
node's state has player 1 to move and `+1` otherwise. -/
noncomputable def calculate_score (node : MCNode) (player : ℕ) : EReal :=
  if node.is_root then 0
  else
    let modifier : ℚ := if node.current_player = 1 then -1 else 1
    let q : ℚ := if player = 1 then modifier * node.player1_wins
      else modifier * node.player2_wins
    let n := node.visit_count
    if n = 0 then ⊤
    else (((q / n : ℚ) : ℝ) + 2 * Real.sqrt (Real.log node.parent_visits / n) : ℝ)

/-- The claim's formula for the UCT score of a non-root node:
`wins_for_P / visits + 2 * sqrt(ln(parent.visits) / visits)`, and `+inf`
at zero visits. -/
noncomputable def Spec.uctFormula (node : MCNode) (player : ℕ) : EReal :=
  if node.visit_count = 0 then ⊤
  else ((((if player = 1 then node.player1_wins else node.player2_wins)
      / node.visit_count : ℚ) : ℝ)
    + 2 * Real.sqrt (Real.log node.parent_visits / node.visit_count) : ℝ)

/-- **C6 (amended).** For a non-root node, `_calculate_score` returns
`+inf` exactly at zero visits; at nonzero visits it returns the claim's
formula with the win term multiplied by `-1` when the node's state has
player 1 to move (so the claim's formula itself is computed only for
nodes whose current player is not 1); and a never-visited node's score
exceeds every visited non-root sibling's score. -/
theorem C6_uct_score (node : MCNode) (player : ℕ) (hroot : node.is_root = false) :
    (node.visit_count = 0 → calculate_score node player = ⊤)
      ∧ (node.current_player ≠ 1 →
          calculate_score node player = Spec.uctFormula node player)
      ∧ (node.visit_count ≠ 0 →
          calculate_score node player =
            ((((if node.current_player = 1 then (-1 : ℚ) else 1)
                * (if player = 1 then node.player1_wins else node.player2_wins)
                / node.visit_count : ℚ) : ℝ)
              + 2 * Real.sqrt (Real.log node.parent_visits / node.visit_count) : ℝ))
      ∧ (∀ sibling : MCNode, sibling.is_root = false → sibling.visit_count ≠ 0 →
          node.visit_count = 0 →
          calculate_score sibling player < calculate_score node player) := by
  refine ⟨?_, ?_, ?_, ?_⟩
  · intro h0
    simp [calculate_score, hroot, h0]
  · intro hcp
    by_cases h0 : node.visit_count = 0
    · simp [calculate_score, Spec.uctFormula, hroot, h0]
    · by_cases hp : player = 1 <;>
        simp [calculate_score, Spec.uctFormula, hroot, h0, hcp, hp]
  · intro h0
    by_cases hcp : node.current_player = 1 <;> by_cases hp : player = 1 <;>
      simp [calculate_score, hroot, h0, hcp, hp]
  · intro sibling hsibroot hsib0 h0
    have hnode : calculate_score node player = ⊤ := by
      simp [calculate_score, hroot, h0]
    rw [hnode]
    simp only [calculate_score, hsibroot, Bool.false_eq_true, if_false,
      hsib0, if_neg hsib0]
    exact EReal.coe_lt_top _

/-- A non-root node with player 1 to move, one win for player 1 in one
visit, under a once-visited parent. -/
def nodeC6 : MCNode := ⟨1, 1, 0, 1, false, 1⟩

/-- **C6 counterexample.** On `nodeC6` the code's cached score is `-1`
(the modifier negates the win term), while the claim's formula gives `+1`:
the claim's equation fails as stated. -/
theorem C6_uct_score_counterexample :
    calculate_score nodeC6 1 = ((-1 : ℝ) : EReal)
      ∧ Spec.uctFormula nodeC6 1 = ((1 : ℝ) : EReal)
      ∧ calculate_score nodeC6 1 ≠ Spec.uctFormula nodeC6 1 := by
  have h1 : calculate_score nodeC6 1 = ((-1 : ℝ) : EReal) := by
    simp [calculate_score, nodeC6, Real.log_one, Real.sqrt_zero]
  have h2 : Spec.uctFormula nodeC6 1 = ((1 : ℝ) : EReal) := by
    simp [Spec.uctFormula, nodeC6, Real.log_one, Real.sqrt_zero]
  refine ⟨h1, h2, ?_⟩
  rw [h1, h2]
  intro h
  have := EReal.coe_injective h
  norm_num at this

theorem C6_uct_score_witness :
    ((2 : ℕ) ≠ 1)
      ∧ calculate_score ⟨2, 1, 0, 2, false, 1⟩ 1
          = Spec.uctFormula ⟨2, 1, 0, 2, false, 1⟩ 1 :=
  ⟨by decide, (C6_uct_score ⟨2, 1, 0, 2, false, 1⟩ 1 rfl).2.1 (by decide)⟩

/-! ## Claim C7: backpropagation statistics

`MonteCarloTree.backpropagate` of `team42_A3_MCTS_simplified` (and, for
the counterexample, the older `team42_MCT` variant).  The parent-pointer
walk from the simulated node to the root is modelled on a pure tree: the
same set of nodes — every node on the root-to-target path — is updated.
The cached `uct_score` recomputation is a pure function of the fields
updated here (settled under C6) and is omitted from the statistics
model. -/

/-- An MCTS tree of statistics: win tallies, visit count, children. -/
inductive MCTree : Type
  | node (p1 p2 : ℚ) (visits : ℕ) (children : List MCTree)

/-- The claim's per-node update: visits grow by exactly 1; the winner's
tally by exactly 1; both tallies by 0.5 on a draw (winner 0). -/
def Spec.bpStats (winner : ℕ) (s : ℚ × ℚ × ℕ) : ℚ × ℚ × ℕ :=
  (s.1 + (if winner = 1 then 1 else if winner = 0 then 1/2 else 0),
   s.2.1 + (if winner = 2 then 1 else if winner = 0 then 1/2 else 0),
   s.2.2 + 1)

/-- `backpropagate` (A3_MCTS_simplified): at every node from the
simulated node up to the root, increment the visit count and update the
tallies by the source's `if winner == 1 / == 2 / == 0 / else pass` chain. -/
def backpropagate (winner : ℕ) : MCTree → List ℕ → MCTree
  | .node p1 p2 visits children, path =>
    let p1' := if winner = 1 then p1 + 1 else if winner = 2 then p1
      else if winner = 0 then p1 + 1/2 else p1
    let p2' := if winner = 1 then p2 else if winner = 2 then p2 + 1
      else if winner = 0 then p2 + 1/2 else p2
    match path with
    | [] => .node p1' p2' (visits + 1) children
    | i :: rest => .node p1' p2' (visits + 1)
        (children.modify (fun t => backpropagate winner t rest) i)

/-- `backpropagate` (team42_MCT): only the simulated node's visit count is
incremented (ancestor counts are incremented in `traverse` instead), and
draws change no tally. -/
def backpropagateMCT (winner : ℕ) : MCTree → List ℕ → MCTree
  | .node p1 p2 visits children, path =>
    let p1' := if winner = 1 then p1 + 1 else p1
    let p2' := if winner = 2 then p2 + 1 else p2
    match path with
    | [] => .node p1' p2' (visits + 1) children
    | i :: rest => .node p1' p2' visits
        (children.modify (fun t => backpropagateMCT winner t rest) i)

/-- A sequence of backpropagations (one per simulated game). -/
def backprops (ops : List (ℕ × List ℕ)) (t : MCTree) : MCTree :=
  ops.foldl (fun t op => backpropagate op.1 t op.2) t

def rootVisits : MCTree → ℕ
  | .node _ _ v _ => v

/-- The statistics of the node at a root path (child indices). -/
def statsAt : MCTree → List ℕ → Option (ℚ × ℚ × ℕ)
  | .node p1 p2 v _, [] => some (p1, p2, v)
  | .node _ _ _ cs, i :: rest =>
    match cs[i]? with
    | some t => statsAt t rest
    | none => none

/-- The claim's invariant: at every node,
`player1_wins + player2_wins ≤ visit_count`. -/
inductive TreeOk : MCTree → Prop
  | mk {p1 p2 : ℚ} {v : ℕ} {cs : List MCTree} :
      p1 + p2 ≤ (v : ℚ) → (∀ t ∈ cs, TreeOk t) → TreeOk (.node p1 p2 v cs)

theorem backpropagate_stats_eq (winner : ℕ) (p1 p2 : ℚ) :
    ((if winner = 1 then p1 + 1 else if winner = 2 then p1
        else if winner = 0 then p1 + 1/2 else p1),
      (if winner = 1 then p2 else if winner = 2 then p2 + 1
        else if winner = 0 then p2 + 1/2 else p2))
      = ((Spec.bpStats winner (p1, p2, 0)).1, (Spec.bpStats winner (p1, p2, 0)).2.1) := by
  unfold Spec.bpStats
  by_cases h1 : winner = 1
  · simp [h1]
  · by_cases h2 : winner = 2
    · simp [h1, h2]
    · by_cases h0 : winner = 0 <;> simp [h1, h2, h0]

theorem rootVisits_backpropagate (winner : ℕ) (t : MCTree) (path : List ℕ) :
    rootVisits (backpropagate winner t path) = rootVisits t + 1 := by
  obtain ⟨p1, p2, v, cs⟩ := t
  cases path <;> rfl

theorem rootVisits_backprops (ops : List (ℕ × List ℕ)) (t : MCTree) :
    rootVisits (backprops ops t) = rootVisits t + ops.length := by
  induction ops generalizing t with
  | nil => rfl
  | cons op tl ih =>
    simp only [backprops, List.foldl_cons] at ih ⊢
    rw [ih, rootVisits_backpropagate, List.length_cons]
    omega

theorem treeOk_backpropagate (winner : ℕ) (path : List ℕ) :
    ∀ t : MCTree, TreeOk t → TreeOk (backpropagate winner t path) := by
  induction path with
  | nil =>
    rintro ⟨p1, p2, v, cs⟩ ⟨hle, hcs⟩
    refine TreeOk.mk ?_ hcs
    push_cast
    by_cases h1 : winner = 1
    · simp only [h1, if_true]
      push_cast
      linarith
    · by_cases h2 : winner = 2
      · simp [h1, h2]
        push_cast
        linarith
      · by_cases h0 : winner = 0
        · simp [h1, h2, h0]
          push_cast
          linarith
        · simp [h1, h2, h0]
          push_cast
          linarith
  | cons i rest ih =>
    rintro ⟨p1, p2, v, cs⟩ ⟨hle, hcs⟩
    refine TreeOk.mk ?_ ?_
    · push_cast
      by_cases h1 : winner = 1
      · simp [h1]
        push_cast
        linarith
      · by_cases h2 : winner = 2
        · simp [h1, h2]
          push_cast
          linarith
        · by_cases h0 : winner = 0
          · simp [h1, h2, h0]
            push_cast
            linarith
          · simp [h1, h2, h0]
            push_cast
            linarith
    · intro t' ht'
      rw [List.mem_iff_getElem?] at ht'
      obtain ⟨j, hj⟩ := ht'
      rw [List.getElem?_modify] at hj
      cases hcj : cs[j]? with
      | none =>
        rw [hcj] at hj
        exact Option.noConfusion hj
      | some tj =>
        have htj : TreeOk tj := hcs tj (by
          rw [List.mem_iff_getElem?]
          exact ⟨j, hcj⟩)
        rw [hcj, Option.map_eq_map, Option.map_some'] at hj
        rw [Option.some.injEq] at hj
        subst hj
        by_cases hij : i = j
        · rw [if_pos hij]
          exact ih tj htj
        · rw [if_neg hij]
          exact htj

theorem bp_update_fst (winner : ℕ) (p1 : ℚ) :
    (if winner = 1 then p1 + 1 else if winner = 2 then p1
      else if winner = 0 then p1 + 1/2 else p1)
      = p1 + (if winner = 1 then 1 else if winner = 0 then 1/2 else 0) := by
  by_cases h1 : winner = 1
  · simp [h1]
  · by_cases h2 : winner = 2
    · simp [h1, h2]
    · by_cases h0 : winner = 0 <;> simp [h1, h2, h0]

theorem bp_update_snd (winner : ℕ) (p2 : ℚ) :
    (if winner = 1 then p2 else if winner = 2 then p2 + 1
      else if winner = 0 then p2 + 1/2 else p2)
      = p2 + (if winner = 2 then 1 else if winner = 0 then 1/2 else 0) := by
  by_cases h1 : winner = 1
  · simp [h1]
  · by_cases h2 : winner = 2
    · simp [h1, h2]
    · by_cases h0 : winner = 0 <;> simp [h1, h2, h0]

theorem statsAt_backpropagate_nil (winner : ℕ) (p1 p2 : ℚ) (v : ℕ)
    (cs : List MCTree) (path : List ℕ) :
    statsAt (backpropagate winner (.node p1 p2 v cs) path) []
      = some (Spec.bpStats winner (p1, p2, v)) := by
  cases path <;>
    · simp only [backpropagate, statsAt, Spec.bpStats, Option.some.injEq,
        Prod.mk.injEq]
      exact ⟨bp_update_fst winner p1, bp_update_snd winner p2, trivial⟩

theorem statsAt_backpropagate_prefix (winner : ℕ) :
    ∀ (q path : List ℕ) (t : MCTree), q <+: path →
      statsAt (backpropagate winner t path) q
        = (statsAt t q).map (Spec.bpStats winner) := by
  intro q
  induction q with
  | nil =>
    intro path t _
    obtain ⟨p1, p2, v, cs⟩ := t
    rw [statsAt_backpropagate_nil]
    rfl
  | cons j q' ih =>
    intro path t hpre
    obtain ⟨p1, p2, v, cs⟩ := t
    cases path with
    | nil => exact absurd hpre (by simp)
    | cons i rest =>
      obtain ⟨hij, hq'⟩ := List.cons_prefix_cons.mp hpre
      subst hij
      simp only [backpropagate, statsAt]
      rw [List.getElem?_modify]
      cases hcj : cs[j]? with
      | none => simp
      | some tj => simp [ih rest tj hq']

theorem statsAt_backpropagate_off (winner : ℕ) :
    ∀ (q path : List ℕ) (t : MCTree), ¬ q <+: path →
      statsAt (backpropagate winner t path) q = statsAt t q := by
  intro q
  induction q with
  | nil =>
    intro path t h
    exact absurd List.nil_prefix h
  | cons j q' ih =>
    intro path t hnp
    obtain ⟨p1, p2, v, cs⟩ := t
    cases path with
    | nil =>
      cases hcj : cs[j]? <;> simp [backpropagate, statsAt, hcj]
    | cons i rest =>
      simp only [backpropagate, statsAt]
      rw [List.getElem?_modify]
      by_cases hij : j = i
      · subst hij
        have hq' : ¬ q' <+: rest := fun hq =>
          hnp (List.cons_prefix_cons.mpr ⟨rfl, hq⟩)
        cases hcj : cs[j]? with
        | none => simp
        | some tj => simp [ih rest tj hq']
      · cases hcj : cs[j]? with
        | none => simp
        | some tj =>
          have hij' : ¬ i = j := fun hh => hij hh.symm
          simp [hcj, if_neg hij']

theorem treeOk_backprops (ops : List (ℕ × List ℕ)) :
    ∀ t : MCTree, TreeOk t → TreeOk (backprops ops t) := by
  induction ops with
  | nil => exact fun _ h => h
  | cons op tl ih => exact fun t h => ih _ (treeOk_backpropagate op.1 op.2 t h)

/-- **C7 (amended).** For the `A3_MCTS_simplified` implementation the
claim holds in full: backpropagation updates exactly the nodes on the
path from the simulated node to the root — each gains one visit, the
winner's tally gains 1 (0.5 to each on a draw) — nodes off the path are
untouched, after N simulated games the root's visit count has grown by
exactly N, and the invariant `p1_wins + p2_wins ≤ visits` is preserved at
every node.  (The `team42_MCT` variant violates the claim:
`C7_backpropagation_counterexample`.) -/
theorem C7_backpropagation (t : MCTree) (ops : List (ℕ × List ℕ)) :
    rootVisits (backprops ops t) = rootVisits t + ops.length
      ∧ (TreeOk t → TreeOk (backprops ops t))
      ∧ (∀ (winner : ℕ) (path q : List ℕ), q <+: path →
          statsAt (backpropagate winner t path) q
            = (statsAt t q).map (Spec.bpStats winner))
      ∧ (∀ (winner : ℕ) (path q : List ℕ), ¬ q <+: path →
          statsAt (backpropagate winner t path) q = statsAt t q) :=
  ⟨rootVisits_backprops ops t, treeOk_backprops ops t,
    fun w path q h => statsAt_backpropagate_prefix w q path t h,
    fun w path q h => statsAt_backpropagate_off w q path t h⟩

/-- A two-node tree: root (5 visits) with one child (1 visit). -/
def tC7 : MCTree := .node 0 0 5 [.node 0 0 1 []]

/-- **C7 counterexample.** In the `team42_MCT` variant, backpropagating a
draw (winner 0) along the path to the child leaves the root's visit count
and both of its tallies unchanged — contradicting the claim that every
node on the path gains one visit and 0.5 per tally on a draw. -/
theorem C7_backpropagation_counterexample :
    rootVisits (backpropagateMCT 0 tC7 [0]) = rootVisits tC7
      ∧ statsAt (backpropagateMCT 0 tC7 [0]) [] = statsAt tC7 [] :=
  ⟨rfl, rfl⟩

theorem C7_backpropagation_witness :
    TreeOk (MCTree.node 0 0 0 []) ∧ TreeOk (backprops [(1, [])] (.node 0 0 0 [])) :=
  have hok : TreeOk (MCTree.node 0 0 0 []) :=
    TreeOk.mk (by norm_num) (fun t ht => absurd ht (List.not_mem_nil t))
  ⟨hok, (C7_backpropagation (.node 0 0 0 []) [(1, [])]).2.1 hok⟩

/-! ## Claims C8 and C10: the simplified rollout

`MCTSimplified.simulate` and `_simplified_make_move` from
`team42_A3_MCTS/simplified_simulation.py`.  `random.choice` is an
injectable chooser `pick`; the while loop, which Python runs unboundedly,
is embedded with explicit fuel: a `none` result means the loop has not
terminated within the given fuel (for every fuel).  `search_depth` is a
rational and Python's banker's `round` is modelled exactly. -/

/-- Python's `round`: nearest integer, ties to even. -/
def pyRound (q : ℚ) : ℤ :=
  let f := ⌊q⌋
  let r := q - f
  if r < 1/2 then f
  else if 1/2 < r then f + 1
  else if f % 2 = 0 then f else f + 1

/-- `_simplified_make_move`: write the dummy value 42 into the square,
add the region bonus to the mover's score, extend the mover's occupied
list and flip the player (no history append in the simplified variant). -/
def simplified_make_move (game_state : GameState) (square : Square) : GameState :=
  let DUMMY_VALUE : ℕ := 42
  let s1 : GameState := { game_state with
    board := game_state.board.put square DUMMY_VALUE }
  let ms := A1.move_score s1.board square
  let idx := s1.current_player - 1
  let s2 : GameState := { s1 with
    scores := s1.scores.set idx (s1.scores.getD idx 0 + ms) }
  let s3 : GameState :=
    if s2.current_player = 1 then
      { s2 with occupied_squares1 := s2.occupied_squares1 ++ [square] }
    else
      { s2 with occupied_squares2 := s2.occupied_squares2 ++ [square] }
  { s3 with current_player := 3 - s3.current_player }

/-- The `while n_moves > 0` loop of `simulate`: when the current player's
square list is falsy (`None` or empty) flip the player and retry without
consuming budget; otherwise play a chosen square and decrement. -/
def simulateLoop (ps : PlayerSquares) (pick : List Square → Square) :
    ℕ → GameState → ℤ → Option (GameState × ℤ)
  | 0, _, _ => none
  | fuel + 1, gs, n =>
    if 0 < n then
      match ps gs with
      | none =>
        simulateLoop ps pick fuel { gs with current_player := 3 - gs.current_player } n
      | some [] =>
        simulateLoop ps pick fuel { gs with current_player := 3 - gs.current_player } n
      | some (sq :: rest) =>
        simulateLoop ps pick fuel (simplified_make_move gs (pick (sq :: rest))) (n - 1)
    else some (gs, n)

/-- `MCTSimplified.simulate`: budget `min(#empty cells,
round(search_depth * N^2))`, the loop above, then the winner from the sign
of `state_score` — the evaluator when `n_moves > 0` still holds after the
loop, else the raw score difference. -/
def simulate (ps : PlayerSquares) (pick : List Square → Square) (fuel : ℕ)
    (search_depth : ℚ) (selected : GameState) : Option ℤ :=
  let game_state := selected
  let n_moves : ℤ := min (game_state.board.squares.count 0 : ℤ)
    (pyRound (search_depth * (game_state.board.N : ℚ) ^ 2))
  match simulateLoop ps pick fuel game_state n_moves with
  | none => none
  | some (gs, n) =>
    let state_score : ℚ :=
      if 0 < n then evaluate_state ps gs
      else ((gs.scores.getD 0 0 - gs.scores.getD 1 0 : ℤ) : ℚ)
    some (if 0 < state_score then 1 else if state_score < 0 then 2 else 0)

/-- The loop exits only with exhausted budget: its `n` result is never
positive, so `simulate`'s `if n_moves > 0` fallback to the evaluator is
dead code. -/
theorem simulateLoop_final_nonpos (ps : PlayerSquares) (pick : List Square → Square) :
    ∀ (fuel : ℕ) (gs : GameState) (n : ℤ) (gs' : GameState) (n' : ℤ),
      simulateLoop ps pick fuel gs n = some (gs', n') → n' ≤ 0 := by
  intro fuel
  induction fuel with
  | zero =>
    intro gs n gs' n' h
    exact Option.noConfusion h
  | succ fuel ih =>
    intro gs n gs' n' h
    rw [simulateLoop] at h
    by_cases hn : 0 < n
    · rw [if_pos hn] at h
      cases hps : ps gs with
      | none =>
        rw [hps] at h
        exact ih _ _ _ _ h
      | some l =>
        cases l with
        | nil =>
          rw [hps] at h
          exact ih _ _ _ _ h
        | cons sq rest =>
          rw [hps] at h
          exact ih _ _ _ _ h
    · rw [if_neg hn] at h
      rw [Option.some.injEq, Prod.mk.injEq] at h
      omega

/-- First-element chooser standing in for `random.choice`. -/
def pickHead : List Square → Square := fun l => l.headD (0, 0)

/-- An allowed-squares oracle for the C8 failing input: two squares for
player 1, one for player 2. -/
def psC8 : PlayerSquares := fun s =>
  some (if s.current_player = 1 then [(0, 1), (1, 0)] else [(1, 1)])

/-- An empty 2×2-board state, player 1 to move. -/
def sC8 : GameState := ⟨⟨1, 2, [0, 0, 0, 0]⟩, [], [], [0, 0], [], [], 1⟩

/-- The state reached after the single budgeted rollout move of `sC8`. -/
def gsC8 : GameState := ⟨⟨1, 2, [0, 42, 0, 0]⟩, [], [], [0, 0], [(0, 1)], [], 2⟩

/-- **C8.** With `search_depth = 1/4` on an empty 2×2 board the rollout is
truncated by the move budget after one move, far from terminal (three
cells still empty), yet `simulate` returns a draw from the raw score
difference while the static evaluator is strictly positive (player 1
ahead in space): the `if n_moves > 0` fallback that the claim (and the
function's own docstring) promises can never execute, because the loop
only exits once `n_moves ≤ 0`. -/
theorem C8_simulate_truncation_bug :
    simulate psC8 pickHead 5 (1/4) sC8 = some 0
      ∧ simulateLoop psC8 pickHead 5 sC8 1 = some (gsC8, 0)
      ∧ gsC8.board.squares.count 0 = 3
      ∧ 0 < evaluate_state psC8 gsC8 := by
  have hloop : simulateLoop psC8 pickHead 5 sC8 1 = some (gsC8, 0) := by decide
  have h1 : (1/4 : ℚ) * ((sC8.board.N : ℚ)) ^ 2 = 1 := by
    norm_num [sC8, SudokuBoard.N]
  have hround : pyRound 1 = 1 := by norm_num [pyRound]
  have hn : min ((sC8.board.squares.count 0 : ℤ))
      (pyRound ((1/4 : ℚ) * ((sC8.board.N : ℚ)) ^ 2)) = 1 := by
    rw [h1, hround]
    decide
  have heval : 0 < evaluate_state psC8 gsC8 := by
    unfold evaluate_state get_space_value player_space psC8 gsC8
    norm_num [List.getD, SudokuBoard.N]
  refine ⟨?_, hloop, by decide, heval⟩
  simp only [simulate]
  rw [hn, hloop]
  norm_num [gsC8, List.getD]

/-- The oracle of a state in which neither player has any allowed square. -/
def psStuck : PlayerSquares := fun _ => some []

/-- A 2×2-board state with two empty cells. -/
def sStuck : GameState := ⟨⟨1, 2, [0, 1, 0, 2]⟩, [], [], [0, 0], [], [(0, 1), (1, 1)], 1⟩

theorem simulateLoop_stuck (pick : List Square → Square) :
    ∀ (fuel : ℕ) (gs : GameState) (n : ℤ), 0 < n →
      simulateLoop psStuck pick fuel gs n = none := by
  intro fuel
  induction fuel with
  | zero =>
    intro gs n h
    rfl
  | succ fuel ih =>
    intro gs n h
    rw [simulateLoop, if_pos h]
    exact ih _ n h

/-- **C10.** `simulate` does not terminate on a state in which neither
player has an allowed square while the move budget is still positive: the
loop flips the current player forever without consuming budget, so for
every amount of fuel the embedded loop fails to finish. -/
theorem C10_simulate_nontermination :
    ∀ fuel : ℕ, simulate psStuck pickHead fuel 1 sStuck = none := by
  intro fuel
  have h1 : (1 : ℚ) * ((sStuck.board.N : ℚ)) ^ 2 = 4 := by
    norm_num [sStuck, SudokuBoard.N]
  have hround : pyRound 4 = 4 := by norm_num [pyRound]
  have hn : min ((sStuck.board.squares.count 0 : ℤ))
      (pyRound ((1 : ℚ) * ((sStuck.board.N : ℚ)) ^ 2)) = 2 := by
    rw [h1, hround]
    decide
  simp only [simulate]
  rw [hn, simulateLoop_stuck pickHead fuel sStuck 2 (by norm_num)]

/-! ## Claim C9: the best-move selector

`_get_best_move` from `team42_A3_MCTS/sudokuai.py`.  The root's children
are embedded as records of the fields the function reads.  The final
`return bestChild.move` dereferences `None` when every child was skipped,
raising `AttributeError`; that crash is modelled as `Except.error ()`. -/

/-- A root child as read by `_get_best_move`. -/
structure RootChild where
  move : Move
  player1_wins : ℚ
  visit_count : ℕ
  deriving DecidableEq, Repr

/-- The score `_get_best_move` assigns a (visited) child: visit count
under the robust policy, player-1 win ratio otherwise. -/
def child_score (is_robust : Bool) (c : RootChild) : ℚ :=
  if is_robust then (c.visit_count : ℚ) else c.player1_wins / c.visit_count

/-- `_get_best_move`: scan the children, skipping unvisited ones, keeping
the strictly best score (`bestScore` starts at `-inf`); return the best
child's move, or the `AttributeError` crash (`Except.error ()`) when no
child was kept. -/
def get_best_move (children : List RootChild) (is_robust : Bool) :
    Except Unit Move :=
  let final := children.foldl
    (fun (acc : ERat × Option RootChild) child =>
      if child.visit_count = 0 then acc
      else if acc.1 < ERat.ofQ (child_score is_robust child) then
        (ERat.ofQ (child_score is_robust child), some child)
      else acc)
    ((⊥ : ERat), none)
  match final.2 with
  | some c => .ok c.move
  | none => .error ()

/-- The argmax invariant of the `_get_best_move` scan. -/
def GbmInv (is_robust : Bool) (S : List RootChild) (acc : ERat × Option RootChild) : Prop :=
  (acc = (⊥, none) ∧ ∀ c ∈ S, c.visit_count = 0)
    ∨ (∃ c ∈ S, c.visit_count ≠ 0 ∧ acc = (ERat.ofQ (child_score is_robust c), some c)
        ∧ ∀ c' ∈ S, c'.visit_count ≠ 0 →
            child_score is_robust c' ≤ child_score is_robust c)

theorem gbm_loop (is_robust : Bool) :
    ∀ (l S : List RootChild) (acc : ERat × Option RootChild),
      GbmInv is_robust S acc →
      GbmInv is_robust (S ++ l)
        (l.foldl (fun acc child =>
          if child.visit_count = 0 then acc
          else if acc.1 < ERat.ofQ (child_score is_robust child) then
            (ERat.ofQ (child_score is_robust child), some child)
          else acc) acc) := by
  intro l
  induction l with
  | nil =>
    intro S acc h
    simpa using h
  | cons x tl ih =>
    intro S acc h
    rw [List.foldl_cons]
    have hstep : GbmInv is_robust (S ++ [x])
        (if x.visit_count = 0 then acc
          else if acc.1 < ERat.ofQ (child_score is_robust x) then
            (ERat.ofQ (child_score is_robust x), some x)
          else acc) := by
      by_cases hx : x.visit_count = 0
      · rw [if_pos hx]
        rcases h with ⟨hacc, hall⟩ | ⟨c, hc, hcv, hacc, hmax⟩
        · refine Or.inl ⟨hacc, ?_⟩
          intro c hc
          rcases List.mem_append.mp hc with h' | h'
          · exact hall c h'
          · rw [List.mem_singleton] at h'
            subst h'
            exact hx
        · refine Or.inr ⟨c, List.mem_append_left _ hc, hcv, hacc, ?_⟩
          intro c' hc' hv'
          rcases List.mem_append.mp hc' with h' | h'
          · exact hmax c' h' hv'
          · rw [List.mem_singleton] at h'
            subst h'
            exact absurd hx hv'
      · rw [if_neg hx]
        by_cases hlt : acc.1 < ERat.ofQ (child_score is_robust x)
        · rw [if_pos hlt]
          refine Or.inr ⟨x, List.mem_append_right _ (List.mem_singleton_self x),
            hx, rfl, ?_⟩
          intro c' hc' hv'
          rcases List.mem_append.mp hc' with h' | h'
          · rcases h with ⟨hacc, hall⟩ | ⟨c, hc, hcv, hacc, hmax⟩
            · exact absurd (hall c' h') hv'
            · have h1 : child_score is_robust c' ≤ child_score is_robust c :=
                hmax c' h' hv'
              have h2 : ERat.ofQ (child_score is_robust c)
                  < ERat.ofQ (child_score is_robust x) := by
                rw [hacc] at hlt
                exact hlt
              exact le_of_lt (lt_of_le_of_lt h1 (ERat.ofQ_lt_ofQ.mp h2))
          · rw [List.mem_singleton] at h'
            subst h'
            exact le_refl _
        · rw [if_neg hlt]
          rcases h with ⟨hacc, hall⟩ | ⟨c, hc, hcv, hacc, hmax⟩
          · exact absurd (hacc ▸ ERat.bot_lt_ofQ (child_score is_robust x)) hlt
          · refine Or.inr ⟨c, List.mem_append_left _ hc, hcv, hacc, ?_⟩
            intro c' hc' hv'
            rcases List.mem_append.mp hc' with h' | h'
            · exact hmax c' h' hv'
            · rw [List.mem_singleton] at h'
              subst h'
              rw [hacc] at hlt
              exact ERat.ofQ_le_ofQ.mp (not_lt.mp hlt)
    have := ih (S ++ [x]) _ hstep
    rw [List.append_assoc] at this
    simpa using this

/-- **C9 (amended).** When every root child has a zero visit count (in
particular when there are none) `_get_best_move` dereferences `None` and
raises — there is no `NoLegalMoves`-style precondition check; when at
least one child has been visited it returns the move of a visited child
maximizing the selected policy's score. -/
theorem C9_get_best_move (children : List RootChild) (is_robust : Bool) :
    ((∀ c ∈ children, c.visit_count = 0) →
        get_best_move children is_robust = .error ())
      ∧ (∀ c0 ∈ children, c0.visit_count ≠ 0 →
          ∃ c ∈ children, c.visit_count ≠ 0
            ∧ get_best_move children is_robust = .ok c.move
            ∧ ∀ c' ∈ children, c'.visit_count ≠ 0 →
                child_score is_robust c' ≤ child_score is_robust c) := by
  have hinv := gbm_loop is_robust children [] (⊥, none)
    (Or.inl ⟨rfl, fun c hc => absurd hc (List.not_mem_nil c)⟩)
  rw [List.nil_append] at hinv
  constructor
  · intro hall
    rcases hinv with ⟨hacc, -⟩ | ⟨c, hc, hcv, -, -⟩
    · unfold get_best_move
      rw [hacc]
    · exact absurd (hall c hc) hcv
  · intro c0 hc0 hv0
    rcases hinv with ⟨-, hall⟩ | ⟨c, hc, hcv, hacc, hmax⟩
    · exact absurd (hall c0 hc0) hv0
    · refine ⟨c, hc, hcv, ?_, hmax⟩
      unfold get_best_move
      rw [hacc]

/-- **C9 counterexample.** A root whose only child is unvisited: the call
does not reject with a clean no-move condition — it crashes
(`Except.error ()` models the `AttributeError` from `bestChild.move`
when `bestChild` is `None`). -/
theorem C9_get_best_move_counterexample :
    get_best_move [⟨⟨(0, 0), 1⟩, 0, 0⟩] false = .error () := rfl

theorem C9_get_best_move_witness :
    (⟨⟨(0, 0), 1⟩, 1, 1⟩ : RootChild) ∈ [(⟨⟨(0, 0), 1⟩, 1, 1⟩ : RootChild)]
      ∧ ∃ c ∈ [(⟨⟨(0, 0), 1⟩, 1, 1⟩ : RootChild)], c.visit_count ≠ 0
          ∧ get_best_move [⟨⟨(0, 0), 1⟩, 1, 1⟩] true = .ok c.move
          ∧ ∀ c' ∈ [(⟨⟨(0, 0), 1⟩, 1, 1⟩ : RootChild)], c'.visit_count ≠ 0 →
              child_score true c' ≤ child_score true c :=
  ⟨by decide,
    (C9_get_best_move [⟨⟨(0, 0), 1⟩, 1, 1⟩] true).2 ⟨⟨(0, 0), 1⟩, 1, 1⟩
      (by decide) (by decide)⟩

end CompetitiveSudoku
